import Mathlib

/-!
Verification development for the CacheSystem repository: shallow embeddings of
the LRU, LRU-K, sharded-LRU, LFU-with-aging and ARC cache policies, translated
from src/src/LruCache.tpp, src/src/LfuCache.tpp, src/include/LfuCache.h,
src/src/Arc_new.tpp and src/src/ArcCache.tpp.

Keys and values are modelled as natural numbers (the repository instantiates
its templates at int keys and std::string values; the code uses keys only for
equality and hashing, and values only for storage and default construction,
so Nat with default 0 is a faithful rendition; the default-constructed value
V\x7b\x7d is modelled as 0).  The C++ std::unordered_map index structures are
modelled as association lists with unique keys (first-match lookup); the
std::list recency lists are modelled as Lean lists.  All mutex locking is
dropped: every public operation is atomic, so the sequential semantics is
exactly the per-operation body.
-/

namespace CacheSystem

/-- Cache keys (the repository instantiates the templates at int). -/
abbrev Key := Nat

/-- Cache values; 0 models the default-constructed value V\x7b\x7d. -/
abbrev Val := Nat

/-! ### Association-list helpers modelling std::unordered_map -/

/-- Lookup in an association list: models unordered_map::find. -/
def alookup (k : Key) : List (Key × α) → Option α
  | [] => none
  | (a, b) :: t => if a = k then some b else alookup k t

/-- Key-membership test: models (map.find(k) != map.end()). -/
def amem (k : Key) (m : List (Key × α)) : Bool :=
  (alookup k m).isSome

/-- Erase the (unique) entry of a key: models unordered_map::erase. -/
def aerase (k : Key) : List (Key × α) → List (Key × α)
  | [] => []
  | (a, b) :: t => if a = k then t else (a, b) :: aerase k t

/-- Insert-or-assign: models map[k] = v. -/
def aupsert (k : Key) (v : α) : List (Key × α) → List (Key × α)
  | [] => [(k, v)]
  | (a, b) :: t => if a = k then (k, v) :: t else (a, b) :: aupsert k v t

/-- Erase the first occurrence of an element from a plain key list:
models erasing a list node through its stored iterator. -/
def lerase (k : Key) : List Key → List Key
  | [] => []
  | a :: t => if a = k then t else a :: lerase k t

/-! ### LruCache (src/src/LruCache.tpp)

The C++ list runs from dummyHead (least recently used) to dummyTail (most
recently used): insertNode appends before dummyTail and evictLeastRecent
removes dummyHead->next.  We model the list of keys with the head of the
Lean list at the LRU end and the most recently used key last. -/

structure LruCache where
  capacity : Nat
  /-- nodeMap: key to value index (the node value lives here). -/
  nodeMap : List (Key × Val)
  /-- Keys in list order, least recently used first. -/
  order : List Key
  deriving Repr, DecidableEq

namespace LruCache

/-- Fresh cache as built by the constructor (capacity must be positive there). -/
def init (capacity : Nat) : LruCache :=
  { capacity := capacity, nodeMap := [], order := [] }

/-- moveToMostRecent: detach the node and re-insert it at the tail. -/
def moveToMostRecent (s : LruCache) (k : Key) : LruCache :=
  { s with order := lerase k s.order ++ [k] }

/-- evictLeastRecent: drop the real node at the head of the list and its
index entry; no-op on an empty list (the "shouldn't happen" guard). -/
def evictLeastRecent (s : LruCache) : LruCache :=
  match s.order with
  | [] => s
  | lru :: rest => { s with order := rest, nodeMap := aerase lru s.nodeMap }

/-- addNewNode: evict first when at capacity, then insert at the tail. -/
def addNewNode (s : LruCache) (k : Key) (v : Val) : LruCache :=
  let s := if s.nodeMap.length ≥ s.capacity then s.evictLeastRecent else s
  { s with order := s.order ++ [k], nodeMap := aupsert k v s.nodeMap }

/-- put: overwrite-and-touch on an existing key, otherwise addNewNode. -/
def put (s : LruCache) (k : Key) (v : Val) : LruCache :=
  if amem k s.nodeMap then
    (moveToMostRecent { s with nodeMap := aupsert k v s.nodeMap } k)
  else addNewNode s k v

/-- get(key, value&): on hit move to most recent and produce the value,
on miss leave the state unchanged. -/
def get (s : LruCache) (k : Key) : Option Val × LruCache :=
  match alookup k s.nodeMap with
  | none => (none, s)
  | some v => (some v, moveToMostRecent s k)

/-- remove: detach and erase when present, silent otherwise. -/
def remove (s : LruCache) (k : Key) : LruCache :=
  if amem k s.nodeMap then
    { s with order := lerase k s.order, nodeMap := aerase k s.nodeMap }
  else s

end LruCache

/-! ### LruKCache (src/src/LruCache.tpp, LruKCache section)

LruKCache inherits an inner LruCache (the main cache), keeps a second
LruCache of counts as historyList_, and an unordered_map historyValueMap_
of pending values.  The constructor ignores its keyRange argument and gives
historyList_ the main capacity. -/

structure LruKCache where
  /-- The inherited main LruCache. -/
  main : LruCache
  /-- historyList_: LruCache of per-key access counts. -/
  historyList : LruCache
  /-- historyValueMap_: values waiting for promotion. -/
  historyValueMap : List (Key × Val)
  /-- k_: hit threshold to enter the main cache. -/
  k : Nat
  deriving Repr, DecidableEq

namespace LruKCache

def init (capacity kThreshold : Nat) : LruKCache :=
  { main := LruCache.init capacity
    historyList := LruCache.init capacity
    historyValueMap := []
    k := kThreshold }

/-- shouldPromote: bump the history count; at threshold, when a pending value
exists, drop the history entry and the pending entry and report promotion.
NOTE (faithful to the source): the C++ function receives an out-parameter
promotedValue but never assigns it — storedValue is read from
historyValueMap_ and discarded — so the caller's variable keeps its
default-constructed value. -/
def shouldPromote (s : LruKCache) (key : Key) : Bool × LruKCache :=
  let r := s.historyList.get key
  let historyCount := (r.1.getD 0) + 1
  let hist1 := r.2.put key historyCount
  if historyCount ≥ s.k then
    match alookup key s.historyValueMap with
    | some _ =>
        (true, { s with historyList := hist1.remove key
                        historyValueMap := aerase key s.historyValueMap })
    | none => (false, { s with historyList := hist1 })
  else (false, { s with historyList := hist1 })

/-- put: on a main-cache hit (LruCache::get, which also touches recency)
delegate to LruCache::put; otherwise record the pending value and promote
when shouldPromote fires.  The value handed to the inner put on promotion is
the caller's never-assigned promoteValue, i.e. the default value 0. -/
def put (s : LruKCache) (key : Key) (value : Val) : LruKCache :=
  match s.main.get key with
  | (some _, main1) => { s with main := main1.put key value }
  | (none, main1) =>
      let s := { s with main := main1
                        historyValueMap := aupsert key value s.historyValueMap }
      let pr := s.shouldPromote key
      if pr.1 then { pr.2 with main := pr.2.main.put key 0 } else pr.2

/-- get (value-returning): main-cache hit returns the stored value; otherwise
shouldPromote may admit the key, and the returned value is the caller's
never-assigned local, i.e. the default value 0. -/
def get (s : LruKCache) (key : Key) : Val × LruKCache :=
  match s.main.get key with
  | (some v, main1) => (v, { s with main := main1 })
  | (none, main1) =>
      let s := { s with main := main1 }
      let pr := s.shouldPromote key
      if pr.1 then (0, { pr.2 with main := pr.2.main.put key 0 })
      else (0, pr.2)

end LruKCache

/-! ### HashLruCaches (src/src/LruCache.tpp, HashLruCaches section)

A vector of independent LruCache shards; every operation routes to shard
hash(key) mod sliceNum.  The hash function is a parameter of the model
(std::hash is implementation defined). -/

structure HashLruCaches where
  slices : List LruCache
  deriving Repr, DecidableEq

namespace HashLruCaches

/-- Constructor: sliceNum shards, each of capacity ceil(capacity/sliceNum). -/
def init (capacity sliceNum : Nat) : HashLruCaches :=
  { slices := List.replicate sliceNum (LruCache.init ((capacity + sliceNum - 1) / sliceNum)) }

/-- calcSliceIndex: hash(key) % sliceNum. -/
def calcSliceIndex (hash : Key → Nat) (s : HashLruCaches) (k : Key) : Nat :=
  hash k % s.slices.length

def put (hash : Key → Nat) (s : HashLruCaches) (k : Key) (v : Val) : HashLruCaches :=
  let i := s.calcSliceIndex hash k
  { s with slices := s.slices.modify (fun c => c.put k v) i }

def get (hash : Key → Nat) (s : HashLruCaches) (k : Key) : Option Val × HashLruCaches :=
  let i := s.calcSliceIndex hash k
  match s.slices.get? i with
  | none => (none, s)
  | some c =>
      let r := c.get k
      (r.1, { s with slices := s.slices.set i r.2 })

end HashLruCaches

/-! ### LfuCache (src/src/LfuCache.tpp, src/include/LfuCache.h)

A FreqList bucket is a doubly linked list with the oldest (first added)
node at the front; addNode appends before the tail sentinel and
getFirstNode returns head->next, so eviction takes the least recently
promoted entry of the bucket.  We model a bucket as a list of keys, oldest
first, and freqMap_ as an association list from frequency to bucket (empty
buckets are erased, as in the source).  Node values and frequencies live in
nodeMap.  The iteration order of the C++ unordered_map freqMap_ (used only
by updateMinFreq, which is order independent, and by ageAll's extraction)
is unspecified; the model iterates buckets in the association-list order. -/

structure LfuCache where
  capacity : Nat
  /-- maxAverageNum_: the aging threshold A. -/
  maxAverageNum : Nat
  minFreq : Nat
  curAverageNum : Nat
  curTotalNum : Nat
  /-- nodeMap_: key to (value, freq); the node objects. -/
  nodeMap : List (Key × Val × Nat)
  /-- freqMap_: frequency to bucket of keys, oldest first within a bucket. -/
  freqMap : List (Nat × List Key)
  deriving Repr, DecidableEq

namespace LfuCache

def init (capacity maxAvg : Nat) : LfuCache :=
  { capacity := capacity, maxAverageNum := maxAvg, minFreq := 1
    curAverageNum := 0, curTotalNum := 0, nodeMap := [], freqMap := [] }

/-- FreqList::addNode on bucket f (created lazily): append the key at the
back of the bucket. -/
def addToBucket (s : LfuCache) (f : Nat) (k : Key) : LfuCache :=
  match alookup f s.freqMap with
  | some b => { s with freqMap := aupsert f (b ++ [k]) s.freqMap }
  | none => { s with freqMap := aupsert f [k] s.freqMap }

/-- FreqList::removeNode on bucket f followed by erasing the bucket when it
becomes empty (as increaseFrequency and evict both do). -/
def removeFromBucket (s : LfuCache) (f : Nat) (k : Key) : LfuCache × Bool :=
  match alookup f s.freqMap with
  | some b =>
      let b1 := lerase k b
      if b1.isEmpty then ({ s with freqMap := aerase f s.freqMap }, true)
      else ({ s with freqMap := aupsert f b1 s.freqMap }, false)
  | none => (s, false)

/-- updateMinFreq: linear scan for the smallest non-empty bucket, 1 when
there is none. -/
def updateMinFreq (s : LfuCache) : LfuCache :=
  let nonempty := s.freqMap.filter (fun fb => ¬ fb.2.isEmpty)
  match nonempty.map Prod.fst with
  | [] => { s with minFreq := 1 }
  | f :: fs => { s with minFreq := fs.foldl min f }

/-- Recompute curAverageNum_ = total / |nodeMap| (0 on an empty map). -/
def recomputeAvg (s : LfuCache) : LfuCache :=
  { s with curAverageNum :=
      if s.nodeMap.isEmpty then 0 else s.curTotalNum / s.nodeMap.length }

/-- increaseFrequency: move the node from bucket f to bucket f+1, advance
minFreq_ past an emptied minimum bucket, and bump the totals. -/
def increaseFrequency (s : LfuCache) (k : Key) : LfuCache :=
  match alookup k s.nodeMap with
  | none => s
  | some (v, oldFreq) =>
      let r := s.removeFromBucket oldFreq k
      let s1 := if r.2 ∧ s.minFreq = oldFreq
                then { r.1 with minFreq := oldFreq + 1 } else r.1
      let s2 := { s1 with nodeMap := aupsert k (v, oldFreq + 1) s1.nodeMap }
      let s3 := s2.addToBucket (oldFreq + 1) k
      recomputeAvg { s3 with curTotalNum := s3.curTotalNum + 1 }

/-- evict: remove the first node of the bucket at minFreq_ (re-deriving
minFreq_ when that bucket is missing), erase its index entry and subtract
its frequency from the running total. -/
def evict (s : LfuCache) : LfuCache :=
  if s.nodeMap.isEmpty then s else
  let s := if (alookup s.minFreq s.freqMap).isSome then s else s.updateMinFreq
  match alookup s.minFreq s.freqMap with
  | none => s
  | some b =>
      match b with
      | [] => s
      | victim :: _ =>
          let removedFreq := ((alookup victim s.nodeMap).map Prod.snd).getD s.minFreq
          let r := s.removeFromBucket s.minFreq victim
          let s1 := if r.2 then r.1.updateMinFreq else r.1
          let s2 := { s1 with nodeMap := aerase victim s1.nodeMap }
          recomputeAvg { s2 with curTotalNum := s2.curTotalNum - removedFreq }

/-- One rebucketing step of ageAll: halve one node's frequency (minimum 1),
record it, re-add it to its new bucket and add the new frequency to the
running total.  (The extracted C++ node always exists in nodeMap_ in any
consistent state; a key without an index entry is skipped.) -/
def ageStep (t : LfuCache) (k : Key) : LfuCache :=
  match alookup k t.nodeMap with
  | none => t
  | some (v, oldFreq) =>
      let newFreq := if oldFreq > 1 then oldFreq / 2 else 1
      let t1 := { t with nodeMap := aupsert k (v, newFreq) t.nodeMap }
      let t2 := t1.addToBucket newFreq k
      { t2 with curTotalNum := t2.curTotalNum + newFreq }

/-- ageAll: extract every bucketed node (buckets in map order, oldest first
within a bucket), set freq to max(1, freq / 2), rebucket in that order,
reset minFreq_ to 1 and recount the total. -/
def ageAll (s : LfuCache) : LfuCache :=
  let all := (s.freqMap.map Prod.snd).flatten
  let s1 := all.foldl ageStep { s with freqMap := [], curTotalNum := 0 }
  recomputeAvg { s1 with minFreq := 1 }

/-- maybeAge: run a full aging pass when the running average exceeds the
threshold. -/
def maybeAge (s : LfuCache) : LfuCache :=
  if ¬ s.nodeMap.isEmpty ∧ s.curAverageNum > s.maxAverageNum then s.ageAll else s

/-- The body of put before the final aging check. -/
def putCore (s : LfuCache) (k : Key) (v : Val) : LfuCache :=
  match alookup k s.nodeMap with
  | some (_, f) =>
      let s1 := { s with nodeMap := aupsert k (v, f) s.nodeMap }
      s1.increaseFrequency k
  | none =>
      let s1 := if s.nodeMap.length ≥ s.capacity then s.evict else s
      let s2 := { s1 with nodeMap := aupsert k (v, 1) s1.nodeMap }
      let s3 := s2.addToBucket 1 k
      recomputeAvg { s3 with minFreq := 1, curTotalNum := s3.curTotalNum + 1 }

/-- put: no-op at capacity 0; update-and-bump on a hit; otherwise evict when
full, insert at frequency 1; then the aging check. -/
def put (s : LfuCache) (k : Key) (v : Val) : LfuCache :=
  if s.capacity = 0 then s else (s.putCore k v).maybeAge

/-- get(key, value&): on hit read the value, bump the frequency and run the
aging check; a miss never mutates. -/
def get (s : LfuCache) (k : Key) : Option Val × LfuCache :=
  match alookup k s.nodeMap with
  | none => (none, s)
  | some (v, _) => (some v, (s.increaseFrequency k).maybeAge)

end LfuCache

/-! ### ARC (src/src/Arc_new.tpp and src/src/ArcCache.tpp)

Both ARC classes keep four std::list recency lists (push_front at the MRU
end, back() at the LRU end), a value index map_ from key to
(value, which-list tag, iterator), and two ghost indices b1_map_/b2_map_
from key to list iterator.  We model the lists with the head at the MRU
end, the value index as an association list carrying the tag (the iterator
is the key's position in the tagged list), and the ghost indices as the
association-list key sets b1k/b2k (the stored iterator is the key's
position in the ghost list).  The two classes share this state type; each
class's member functions are transcribed separately below.

The declaration header ArcCache.h is not in the repository, but
ArcCache.tpp contains the constructor and every member function, and the
members it uses line up with Arc_new.h, so nothing behavioural is missing. -/

/-- ListTag: which real list holds the key.  The C++ enum also has a None
default, but every stored Entry is written with tag T1 or T2. -/
inductive ArcTag
  | T1
  | T2
  deriving Repr, DecidableEq

structure ArcSt where
  capacity : Nat
  /-- t1_: keys seen once recently, MRU first. -/
  t1 : List Key
  /-- t2_: keys seen at least twice recently, MRU first. -/
  t2 : List Key
  /-- b1_: ghost keys recently evicted from T1, MRU first. -/
  b1 : List Key
  /-- b2_: ghost keys recently evicted from T2, MRU first. -/
  b2 : List Key
  /-- map_: the value index over T1 and T2. -/
  map : List (Key × Val × ArcTag)
  /-- b1_map_: key set of the B1 ghost index. -/
  b1k : List Key
  /-- b2_map_: key set of the B2 ghost index. -/
  b2k : List Key
  /-- p_: adaptive target size of T1. -/
  p : Nat
  deriving Repr, DecidableEq

namespace ArcSt

/-- Constructor state: empty lists, p = 0 (both classes). -/
def init (capacity : Nat) : ArcSt :=
  { capacity := capacity, t1 := [], t2 := [], b1 := [], b2 := []
    map := [], b1k := [], b2k := [], p := 0 }

/-- The while loop of trimGhost, with an explicit iteration bound: every
iteration pops one element, so a bound equal to the initial list length
never cuts the loop short. -/
def trimGhostAux (cap : Nat) : Nat → List Key → List Key → List Key × List Key
  | 0, blist, bmap => (blist, bmap)
  | fuel + 1, blist, bmap =>
      if blist.length > cap then
        match blist.getLast? with
        | none => (blist, bmap)
        | some tail => trimGhostAux cap fuel blist.dropLast (lerase tail bmap)
      else (blist, bmap)

/-- trimGhost: pop the LRU end of a ghost list (erasing its index entry)
until its length is at most the capacity. -/
def trimGhost (cap : Nat) (blist bmap : List Key) : List Key × List Key :=
  trimGhostAux cap blist.length blist bmap

/-- moveToT2: detach the key from its tagged list and re-attach it at the
MRU end of T2, retagging the entry. -/
def moveToT2 (s : ArcSt) (k : Key) : ArcSt :=
  match alookup k s.map with
  | none => s
  | some (v, tag) =>
      let s1 := match tag with
        | ArcTag.T1 => { s with t1 := lerase k s.t1 }
        | ArcTag.T2 => { s with t2 := lerase k s.t2 }
      { s1 with t2 := k :: s1.t2, map := aupsert k (v, ArcTag.T2) s1.map }

/-- addToT1MRU: push the key at the MRU end of T1 and index it. -/
def addToT1MRU (s : ArcSt) (k : Key) (v : Val) : ArcSt :=
  { s with t1 := k :: s.t1, map := aupsert k (v, ArcTag.T1) s.map }

/-- addToT2MRU: push the key at the MRU end of T2 and index it. -/
def addToT2MRU (s : ArcSt) (k : Key) (v : Val) : ArcSt :=
  { s with t2 := k :: s.t2, map := aupsert k (v, ArcTag.T2) s.map }

/-- adjustPOnB1Hit: p += max(1, |B2|/|B1|), with increment 1 when B1 is
empty, clamped at the capacity. -/
def adjustPOnB1Hit (s : ArcSt) : ArcSt :=
  let b1s := s.b1.length
  let b2s := s.b2.length
  let delta := max 1 (if b1s = 0 then 1 else b2s / b1s)
  { s with p := min s.capacity (s.p + delta) }

/-- adjustPOnB2Hit: p -= max(1, |B1|/|B2|), with decrement 1 when B2 is
empty, clamped at 0. -/
def adjustPOnB2Hit (s : ArcSt) : ArcSt :=
  let b1s := s.b1.length
  let b2s := s.b2.length
  let delta := max 1 (if b2s = 0 then 1 else b1s / b2s)
  { s with p := if s.p > delta then s.p - delta else 0 }

end ArcSt

/-! #### Arc_new member functions (src/src/Arc_new.tpp) -/

namespace ArcNew

open ArcSt

/-- Arc_new::evictFromT1ToB1: move the T1 LRU key to the B1 MRU end, erase
its value-index entry, then bound B1; early return on an empty T1. -/
def evictFromT1ToB1 (s : ArcSt) : ArcSt :=
  match s.t1.getLast? with
  | none => s
  | some victim =>
      let s1 := { s with t1 := s.t1.dropLast, map := aerase victim s.map }
      let s2 := { s1 with b1 := victim :: s1.b1
                          b1k := if victim ∈ s1.b1k then s1.b1k else victim :: s1.b1k }
      let r := trimGhost s2.capacity s2.b1 s2.b1k
      { s2 with b1 := r.1, b1k := r.2 }

/-- Arc_new::evictFromT2ToB2: symmetric to evictFromT1ToB1. -/
def evictFromT2ToB2 (s : ArcSt) : ArcSt :=
  match s.t2.getLast? with
  | none => s
  | some victim =>
      let s1 := { s with t2 := s.t2.dropLast, map := aerase victim s.map }
      let s2 := { s1 with b2 := victim :: s1.b2
                          b2k := if victim ∈ s1.b2k then s1.b2k else victim :: s1.b2k }
      let r := trimGhost s2.capacity s2.b2 s2.b2k
      { s2 with b2 := r.1, b2k := r.2 }

/-- Arc_new::replace: when T1 is non-empty and (|T1| > p, or the request
hit B1 and |T1| = p), evict from T1 to B1, otherwise from T2 to B2. -/
def replace (s : ArcSt) (hitInB1 : Bool) : ArcSt :=
  if ¬ s.t1.isEmpty ∧ (s.t1.length > s.p ∨ (hitInB1 ∧ s.t1.length = s.p)) then
    evictFromT1ToB1 s
  else
    evictFromT2ToB2 s

/-- Arc_new::get(key, out&): value hit moves the key to T2's MRU; a ghost
hit removes the ghost, tunes p, runs one replace step and reports a miss;
a complete miss mutates nothing. -/
def get (s : ArcSt) (k : Key) : Option Val × ArcSt :=
  match alookup k s.map with
  | some (v, _) => (some v, s.moveToT2 k)
  | none =>
      if k ∈ s.b1k then
        let s1 := { s with b1 := lerase k s.b1, b1k := lerase k s.b1k }
        (none, replace s1.adjustPOnB1Hit true)
      else if k ∈ s.b2k then
        let s1 := { s with b2 := lerase k s.b2, b2k := lerase k s.b2k }
        (none, replace s1.adjustPOnB2Hit false)
      else (none, s)

/-- Arc_new::put: update-and-move on a value hit; on a ghost hit remove the
ghost, tune p, replace, insert at T2's MRU; otherwise (fresh key, positive
capacity) enforce |T1|+|B1| <= capacity — trimming B1 when |T1| < capacity
(guarded against an empty B1), else replacing — or replace when the real
cache is full, then insert at T1's MRU. -/
def put (s : ArcSt) (k : Key) (v : Val) : ArcSt :=
  match alookup k s.map with
  | some (_, tag) =>
      ({ s with map := aupsert k (v, tag) s.map } : ArcSt).moveToT2 k
  | none =>
      if k ∈ s.b1k then
        let s1 := { s with b1 := lerase k s.b1, b1k := lerase k s.b1k }
        (replace s1.adjustPOnB1Hit true).addToT2MRU k v
      else if k ∈ s.b2k then
        let s1 := { s with b2 := lerase k s.b2, b2k := lerase k s.b2k }
        (replace s1.adjustPOnB2Hit false).addToT2MRU k v
      else if s.capacity = 0 then s
      else
        let s1 :=
          if s.t1.length + s.b1.length ≥ s.capacity then
            if s.t1.length < s.capacity then
              if ¬ s.b1.isEmpty then
                match s.b1.getLast? with
                | none => s
                | some tail => { s with b1 := s.b1.dropLast, b1k := lerase tail s.b1k }
              else s
            else replace s false
          else if s.t1.length + s.t2.length ≥ s.capacity then replace s false
          else s
        s1.addToT1MRU k v

end ArcNew

/-! #### ArcCache member functions (src/src/ArcCache.tpp)

The transcription differs from Arc_new exactly where the sources differ:
ArcCache::evictFromT1ToB1 has no early return on an empty T1 (back() on an
empty list — the sole caller, replace, guards !t1_.empty() so the case is
dead; the model leaves the state unchanged there), and ArcCache::put trims
B1 without the !b1_.empty() guard (back() on an empty B1 — dead because in
that branch |T1|+|B1| >= capacity > |T1| forces B1 non-empty; the model
leaves the state unchanged there). -/

namespace ArcCache

open ArcSt

/-- ArcCache::evictFromT1ToB1 (no empty-T1 early return in the source; the
none branch is unreachable from its only caller). -/
def evictFromT1ToB1 (s : ArcSt) : ArcSt :=
  match s.t1.getLast? with
  | none => s
  | some victim =>
      let s1 := { s with t1 := s.t1.dropLast, map := aerase victim s.map }
      let s2 := { s1 with b1 := victim :: s1.b1
                          b1k := if victim ∈ s1.b1k then s1.b1k else victim :: s1.b1k }
      let r := trimGhost s2.capacity s2.b1 s2.b1k
      { s2 with b1 := r.1, b1k := r.2 }

/-- ArcCache::evictFromT2ToB2: guarded on an empty T2 as in the source. -/
def evictFromT2ToB2 (s : ArcSt) : ArcSt :=
  match s.t2.getLast? with
  | none => s
  | some victim =>
      let s1 := { s with t2 := s.t2.dropLast, map := aerase victim s.map }
      let s2 := { s1 with b2 := victim :: s1.b2
                          b2k := if victim ∈ s1.b2k then s1.b2k else victim :: s1.b2k }
      let r := trimGhost s2.capacity s2.b2 s2.b2k
      { s2 with b2 := r.1, b2k := r.2 }

/-- ArcCache::replace. -/
def replace (s : ArcSt) (hitInB1 : Bool) : ArcSt :=
  if ¬ s.t1.isEmpty ∧ (s.t1.length > s.p ∨ (hitInB1 ∧ s.t1.length = s.p)) then
    evictFromT1ToB1 s
  else
    evictFromT2ToB2 s

/-- ArcCache::get(key, out&). -/
def get (s : ArcSt) (k : Key) : Option Val × ArcSt :=
  match alookup k s.map with
  | some (v, _) => (some v, s.moveToT2 k)
  | none =>
      if k ∈ s.b1k then
        let s1 := { s with b1 := lerase k s.b1, b1k := lerase k s.b1k }
        (none, replace s1.adjustPOnB1Hit true)
      else if k ∈ s.b2k then
        let s1 := { s with b2 := lerase k s.b2, b2k := lerase k s.b2k }
        (none, replace s1.adjustPOnB2Hit false)
      else (none, s)

/-- ArcCache::put (B1 trim without the empty guard; the none branch is
unreachable because that branch forces B1 to be non-empty). -/
def put (s : ArcSt) (k : Key) (v : Val) : ArcSt :=
  match alookup k s.map with
  | some (_, tag) =>
      ({ s with map := aupsert k (v, tag) s.map } : ArcSt).moveToT2 k
  | none =>
      if k ∈ s.b1k then
        let s1 := { s with b1 := lerase k s.b1, b1k := lerase k s.b1k }
        (replace s1.adjustPOnB1Hit true).addToT2MRU k v
      else if k ∈ s.b2k then
        let s1 := { s with b2 := lerase k s.b2, b2k := lerase k s.b2k }
        (replace s1.adjustPOnB2Hit false).addToT2MRU k v
      else if s.capacity = 0 then s
      else
        let s1 :=
          if s.t1.length + s.b1.length ≥ s.capacity then
            if s.t1.length < s.capacity then
              match s.b1.getLast? with
              | none => s
              | some tail => { s with b1 := s.b1.dropLast, b1k := lerase tail s.b1k }
            else replace s false
          else if s.t1.length + s.t2.length ≥ s.capacity then replace s false
          else s
        s1.addToT1MRU k v

end ArcCache

/-! ### Operation sequences

A public call is a put or a get; a run folds a call sequence over the
constructor state.  Runs define the reachable states of every policy. -/

inductive Op
  | oput (k : Key) (v : Val)
  | oget (k : Key)
  deriving Repr, DecidableEq

namespace ArcNew

def step (s : ArcSt) : Op → ArcSt
  | Op.oput k v => put s k v
  | Op.oget k => (get s k).2

def run (cap : Nat) (ops : List Op) : ArcSt :=
  ops.foldl step (ArcSt.init cap)

/-- The observable result of one call: a put returns nothing, a get returns
its hit/miss flag together with the value delivered on a hit. -/
def out (s : ArcSt) : Op → Option Val
  | Op.oput _ _ => none
  | Op.oget k => (get s k).1

/-- The trace of observable results of a call sequence. -/
def outs (s : ArcSt) : List Op → List (Option Val)
  | [] => []
  | op :: rest => out s op :: outs (step s op) rest

end ArcNew

namespace ArcCache

def step (s : ArcSt) : Op → ArcSt
  | Op.oput k v => put s k v
  | Op.oget k => (get s k).2

def run (cap : Nat) (ops : List Op) : ArcSt :=
  ops.foldl step (ArcSt.init cap)

def out (s : ArcSt) : Op → Option Val
  | Op.oput _ _ => none
  | Op.oget k => (get s k).1

def outs (s : ArcSt) : List Op → List (Option Val)
  | [] => []
  | op :: rest => out s op :: outs (step s op) rest

end ArcCache

namespace LfuCache

def step (s : LfuCache) : Op → LfuCache
  | Op.oput k v => put s k v
  | Op.oget k => (get s k).2

def run (cap maxAvg : Nat) (ops : List Op) : LfuCache :=
  ops.foldl step (init cap maxAvg)

end LfuCache

namespace LruCache

def step (s : LruCache) : Op → LruCache
  | Op.oput k v => put s k v
  | Op.oget k => (get s k).2

def run (cap : Nat) (ops : List Op) : LruCache :=
  ops.foldl step (init cap)

end LruCache

/-! ### Helper lemmas about the association-list operations -/

theorem alookup_upsert_self (k : Key) (v : α) (m : List (Key × α)) :
    alookup k (aupsert k v m) = some v := by
  induction m with
  | nil => simp [aupsert, alookup]
  | cons h t ih =>
      obtain ⟨a, b⟩ := h
      by_cases hak : a = k
      · subst hak; simp [aupsert, alookup]
      · simp [aupsert, alookup, hak, ih]

theorem alookup_upsert_ne (a k : Key) (v : α) (m : List (Key × α)) (hne : a ≠ k) :
    alookup a (aupsert k v m) = alookup a m := by
  have hka : k ≠ a := Ne.symm hne
  induction m with
  | nil => simp [aupsert, alookup, hka]
  | cons h t ih =>
      obtain ⟨x, b⟩ := h
      by_cases hxk : x = k
      · subst hxk; simp [aupsert, alookup, hka]
      · simp [aupsert, alookup, hxk, ih]

theorem alookup_erase_ne (a k : Key) (m : List (Key × α)) (hne : a ≠ k) :
    alookup a (aerase k m) = alookup a m := by
  have hka : k ≠ a := Ne.symm hne
  induction m with
  | nil => simp [aerase]
  | cons h t ih =>
      obtain ⟨x, b⟩ := h
      by_cases hxk : x = k
      · subst hxk; simp [aerase, alookup, hka]
      · simp [aerase, alookup, hxk, ih]

theorem amem_aupsert (x k : Key) (v : α) (m : List (Key × α)) :
    amem x (aupsert k v m) ↔ x = k ∨ amem x m := by
  unfold amem
  by_cases hxk : x = k
  · subst hxk; simp [alookup_upsert_self]
  · rw [alookup_upsert_ne x k v m hxk]
    simp [hxk]

theorem alookup_isSome_of_mem_keys (x : Key) (m : List (Key × α))
    (h : x ∈ m.map Prod.fst) : (alookup x m).isSome := by
  induction m with
  | nil => simp at h
  | cons e t ih =>
      obtain ⟨a, b⟩ := e
      simp only [List.map_cons, List.mem_cons] at h
      by_cases hax : a = x
      · simp [alookup, hax]
      · simp only [alookup, hax, if_false]
        exact ih (h.resolve_left fun hh => hax hh.symm)

theorem mem_keys_of_alookup_isSome (x : Key) (m : List (Key × α))
    (h : (alookup x m).isSome) : x ∈ m.map Prod.fst := by
  induction m with
  | nil => simp [alookup] at h
  | cons e t ih =>
      obtain ⟨a, b⟩ := e
      by_cases hax : a = x
      · simp [hax]
      · simp only [alookup, hax, if_false] at h
        simp [ih h]

theorem amem_iff_mem_keys (x : Key) (m : List (Key × α)) :
    amem x m ↔ x ∈ m.map Prod.fst := by
  constructor
  · exact mem_keys_of_alookup_isSome x m
  · exact alookup_isSome_of_mem_keys x m

theorem keys_aerase_of_nodup (k : Key) (m : List (Key × α))
    (h : (m.map Prod.fst).Nodup) :
    (aerase k m).map Prod.fst = (m.map Prod.fst).erase k := by
  induction m with
  | nil => rfl
  | cons e t ih =>
      obtain ⟨a, b⟩ := e
      simp only [List.map_cons, List.nodup_cons] at h
      by_cases hak : a = k
      · subst hak
        simp [aerase, List.erase_cons_head]
      · simp only [aerase, hak, if_false, List.map_cons]
        rw [List.erase_cons_tail]
        · rw [ih h.2]
        · simp [hak]

theorem keys_aupsert (k : Key) (v : α) (m : List (Key × α)) :
    (aupsert k v m).map Prod.fst
      = if (alookup k m).isSome then m.map Prod.fst else m.map Prod.fst ++ [k] := by
  induction m with
  | nil => simp [aupsert, alookup]
  | cons e t ih =>
      obtain ⟨a, b⟩ := e
      by_cases hak : a = k
      · subst hak; simp [aupsert, alookup]
      · simp only [aupsert, hak, if_false, List.map_cons, alookup, ih]
        split <;> simp

theorem nodup_keys_aupsert (k : Key) (v : α) (m : List (Key × α))
    (h : (m.map Prod.fst).Nodup) : ((aupsert k v m).map Prod.fst).Nodup := by
  rw [keys_aupsert]
  split
  · exact h
  · rename_i hns
    rw [List.nodup_append]
    refine ⟨h, List.nodup_singleton k, ?_⟩
    intro x hx
    simp only [List.mem_singleton]
    intro hxk
    subst hxk
    exact hns (alookup_isSome_of_mem_keys x m hx)

theorem nodup_keys_aerase (k : Key) (m : List (Key × α))
    (h : (m.map Prod.fst).Nodup) : ((aerase k m).map Prod.fst).Nodup := by
  rw [keys_aerase_of_nodup k m h]
  exact h.erase k

theorem lerase_sublist (k : Key) (l : List Key) : (lerase k l).Sublist l := by
  induction l with
  | nil => simp [lerase]
  | cons a t ih =>
      by_cases hak : a = k
      · subst hak
        simp only [lerase, if_true]
        exact List.sublist_cons_self a t
      · simp only [lerase, hak, if_false]
        exact ih.cons₂ a

theorem mem_of_mem_lerase {x k : Key} {l : List Key} (h : x ∈ lerase k l) : x ∈ l :=
  (lerase_sublist k l).mem h

theorem nodup_lerase (k : Key) (l : List Key) (h : l.Nodup) : (lerase k l).Nodup :=
  (lerase_sublist k l).nodup h

theorem lerase_eq_erase (k : Key) (l : List Key) : lerase k l = l.erase k := by
  induction l with
  | nil => rfl
  | cons a t ih =>
      by_cases hak : a = k
      · subst hak; simp [lerase, List.erase_cons_head]
      · simp only [lerase, hak, if_false, ih]
        rw [List.erase_cons_tail]
        simp [hak]

theorem not_mem_lerase_self (k : Key) (l : List Key) (h : l.Nodup) :
    k ∉ lerase k l := by
  rw [lerase_eq_erase]
  exact h.not_mem_erase

theorem mem_lerase_of_mem_ne {x k : Key} {l : List Key} (hx : x ∈ l) (hne : x ≠ k) :
    x ∈ lerase k l := by
  rw [lerase_eq_erase]
  exact (List.mem_erase_of_ne hne).mpr hx

theorem mem_of_alookup_eq_some (k : Key) (b : α) (m : List (Key × α))
    (h : alookup k m = some b) : (k, b) ∈ m := by
  induction m with
  | nil => simp [alookup] at h
  | cons e t ih =>
      obtain ⟨a, c⟩ := e
      by_cases hak : a = k
      · subst hak
        simp only [alookup, if_true] at h
        cases h
        exact List.mem_cons_self _ _
      · simp only [alookup, hak, if_false] at h
        exact List.mem_cons_of_mem _ (ih h)

theorem alookup_aerase_none (k x : Key) (m : List (Key × α))
    (h : alookup k m = none) : alookup k (aerase x m) = none := by
  induction m with
  | nil => rfl
  | cons e t ih =>
      obtain ⟨a, c⟩ := e
      by_cases hak : a = k
      · subst hak
        simp [alookup] at h
      · simp only [alookup, hak, if_false] at h
        by_cases hax : a = x
        · simp only [aerase, hax, if_true]
          exact h
        · simp only [aerase, hax, if_false, alookup, hak]
          exact ih h

/-! ### Round-trip lemmas feeding claim C2 -/

namespace LruCache

/-- After put, the key indexes the new value. -/
theorem lru_lookup_put_self (s : LruCache) (k : Key) (v : Val) :
    alookup k (s.put k v).nodeMap = some v := by
  unfold put
  by_cases hmem : amem k s.nodeMap
  · simp [hmem, moveToMostRecent, alookup_upsert_self]
  · simp [hmem, addNewNode, alookup_upsert_self]

/-- put then get returns the value just put (the LRU round trip). -/
theorem lru_put_get_round_trip (s : LruCache) (k : Key) (v : Val) :
    ((s.put k v).get k).1 = some v := by
  unfold get
  rw [lru_lookup_put_self]

end LruCache

/-! ### Touch-time semantics for the LRU (claim C7)

"Least recently touched" refers to the run history, not to the data
structure: alongside the cache we record, for every key, the index of the
last operation that touched it — a put, or a get that hit.  The invariant
below says the LRU list is sorted by these touch times, so the eviction
victim (the list head) is the least recently touched live key. -/

structure TouchSt where
  st : LruCache
  /-- Last touch time of every key ever touched. -/
  touch : List (Key × Nat)
  /-- The number of operations executed so far. -/
  time : Nat

/-- The recorded touch time of a key (0 if never touched). -/
def touchOf (tm : List (Key × Nat)) (k : Key) : Nat :=
  (alookup k tm).getD 0

/-- One operation of the run, also recording touches: every put touches its
key; a get touches its key exactly when it hits. -/
def tstep (a : TouchSt) : Op → TouchSt
  | Op.oput k v => ⟨a.st.put k v, aupsert k a.time a.touch, a.time + 1⟩
  | Op.oget k =>
      let r := a.st.get k
      ⟨r.2, if r.1.isSome then aupsert k a.time a.touch else a.touch, a.time + 1⟩

/-- The augmented run from a fresh cache. -/
def trun (cap : Nat) (ops : List Op) : TouchSt :=
  ops.foldl tstep ⟨LruCache.init cap, [], 0⟩

theorem tstep_st (a : TouchSt) (op : Op) : (tstep a op).st = LruCache.step a.st op := by
  cases op <;> rfl

theorem trun_st (cap : Nat) (ops : List Op) :
    (trun cap ops).st = LruCache.run cap ops := by
  unfold trun LruCache.run
  have : ∀ (a : TouchSt), (ops.foldl tstep a).st = ops.foldl LruCache.step a.st := by
    induction ops with
    | nil => intro a; rfl
    | cons op rest ih =>
        intro a
        rw [List.foldl_cons, List.foldl_cons, ih, tstep_st]
  exact this _

theorem touchOf_upsert_self (tm : List (Key × Nat)) (k : Key) (T : Nat) :
    touchOf (aupsert k T tm) k = T := by
  unfold touchOf
  rw [alookup_upsert_self]
  rfl

theorem touchOf_upsert_ne (tm : List (Key × Nat)) (x k : Key) (T : Nat) (h : x ≠ k) :
    touchOf (aupsert k T tm) x = touchOf tm x := by
  unfold touchOf
  rw [alookup_upsert_ne x k T tm h]

theorem lerase_of_not_mem (k : Key) (l : List Key) (h : k ∉ l) : lerase k l = l := by
  induction l with
  | nil => rfl
  | cons a t ih =>
      simp only [List.mem_cons, not_or] at h
      have hak : a ≠ k := fun hh => h.1 hh.symm
      simp only [lerase, hak, if_false]
      rw [ih h.2]

/-- The well-formedness of an augmented run state: the list and the index
have unique keys and the same key set, and the list is sorted by last
touch, all touches lying in the past. -/
def TInv (a : TouchSt) : Prop :=
  a.st.order.Nodup ∧
  (a.st.nodeMap.map Prod.fst).Nodup ∧
  (∀ x, amem x a.st.nodeMap = true ↔ x ∈ a.st.order) ∧
  a.st.order.Pairwise (fun x y => touchOf a.touch x < touchOf a.touch y) ∧
  (∀ x ∈ a.st.order, touchOf a.touch x < a.time)

theorem touch_append_nodup (k : Key) (l : List Key) (h : l.Nodup) :
    (lerase k l ++ [k]).Nodup := by
  rw [List.nodup_append]
  refine ⟨nodup_lerase k l h, List.nodup_singleton k, ?_⟩
  intro x hx hxk
  rw [List.mem_singleton] at hxk
  subst hxk
  exact not_mem_lerase_self x l h hx

theorem mem_lerase_append_iff (x k : Key) (l : List Key) :
    x ∈ lerase k l ++ [k] ↔ x = k ∨ x ∈ l := by
  rw [List.mem_append, List.mem_singleton]
  constructor
  · rintro (hx | hx)
    · exact Or.inr (mem_of_mem_lerase hx)
    · exact Or.inl hx
  · rintro (hx | hx)
    · exact Or.inr hx
    · by_cases hxk : x = k
      · exact Or.inr hxk
      · exact Or.inl (mem_lerase_of_mem_ne hx hxk)

theorem touch_append_pairwise (k : Key) (l : List Key) (tm : List (Key × Nat)) (T : Nat)
    (hnd : l.Nodup)
    (hpw : l.Pairwise (fun x y => touchOf tm x < touchOf tm y))
    (hb : ∀ x ∈ l, touchOf tm x < T) :
    (lerase k l ++ [k]).Pairwise
      (fun x y => touchOf (aupsert k T tm) x < touchOf (aupsert k T tm) y) := by
  rw [List.pairwise_append]
  refine ⟨?_, List.pairwise_singleton _ _, ?_⟩
  · have hsub : (lerase k l).Pairwise (fun x y => touchOf tm x < touchOf tm y) :=
      hpw.sublist (lerase_sublist k l)
    refine hsub.imp_of_mem ?_
    intro x y hx hy hxy
    have hxk : x ≠ k := fun hh => not_mem_lerase_self k l hnd (hh ▸ hx)
    have hyk : y ≠ k := fun hh => not_mem_lerase_self k l hnd (hh ▸ hy)
    rw [touchOf_upsert_ne tm x k T hxk, touchOf_upsert_ne tm y k T hyk]
    exact hxy
  · intro x hx y hy
    rw [List.mem_singleton] at hy
    have hxk : x ≠ k := fun hh => not_mem_lerase_self k l hnd (hh ▸ hx)
    rw [hy, touchOf_upsert_ne tm x k T hxk, touchOf_upsert_self]
    exact hb x (mem_of_mem_lerase hx)

theorem touch_append_bound (k : Key) (l : List Key) (tm : List (Key × Nat)) (T : Nat)
    (hnd : l.Nodup)
    (hb : ∀ x ∈ l, touchOf tm x < T) :
    ∀ x ∈ lerase k l ++ [k], touchOf (aupsert k T tm) x < T + 1 := by
  intro x hx
  rw [List.mem_append, List.mem_singleton] at hx
  rcases hx with hx | hx
  · have hxk : x ≠ k := fun hh => not_mem_lerase_self k l hnd (hh ▸ hx)
    rw [touchOf_upsert_ne tm x k T hxk]
    exact Nat.lt_succ_of_lt (hb x (mem_of_mem_lerase hx))
  · subst hx
    rw [touchOf_upsert_self]
    exact Nat.lt_succ_self T

/-- evictLeastRecent preserves the augmented invariant (at fixed touch
records and time). -/
theorem TInv_evict (s : LruCache) (tm : List (Key × Nat)) (T : Nat)
    (h : TInv ⟨s, tm, T⟩) : TInv ⟨s.evictLeastRecent, tm, T⟩ := by
  obtain ⟨hnd, hknd, hsync, hpw, hb⟩ := h
  unfold LruCache.evictLeastRecent
  cases horder : s.order with
  | nil =>
      exact ⟨hnd, hknd, hsync, hpw, hb⟩
  | cons e rest =>
      rw [horder] at hnd hpw hb hsync
      refine ⟨hnd.of_cons, nodup_keys_aerase e s.nodeMap hknd, ?_, hpw.of_cons, ?_⟩
      · intro x
        rw [show amem x (aerase e s.nodeMap) = true ↔ x ∈ (aerase e s.nodeMap).map Prod.fst
              from by rw [amem_iff_mem_keys]]
        rw [keys_aerase_of_nodup e s.nodeMap hknd]
        rw [hknd.mem_erase_iff]
        rw [show x ∈ s.nodeMap.map Prod.fst ↔ amem x s.nodeMap = true from
              (amem_iff_mem_keys x s.nodeMap).symm]
        rw [hsync x]
        simp only [List.mem_cons]
        constructor
        · rintro ⟨hxe, he | hr⟩
          · exact absurd he hxe
          · exact hr
        · intro hr
          refine ⟨?_, Or.inr hr⟩
          intro hxe
          subst hxe
          exact (List.nodup_cons.mp hnd).1 hr
      · intro x hx
        exact hb x (List.mem_cons_of_mem e hx)

theorem amem_evict_true (s : LruCache) (x : Key)
    (hknd : (s.nodeMap.map Prod.fst).Nodup)
    (h : amem x s.evictLeastRecent.nodeMap = true) : amem x s.nodeMap = true := by
  unfold LruCache.evictLeastRecent at h
  cases horder : s.order with
  | nil => rw [horder] at h; exact h
  | cons e rest =>
      rw [horder] at h
      have h2 := (amem_iff_mem_keys x (aerase e s.nodeMap)).mp h
      rw [keys_aerase_of_nodup e s.nodeMap hknd] at h2
      exact (amem_iff_mem_keys x s.nodeMap).mpr (List.mem_of_mem_erase h2)

/-- One augmented step preserves the invariant. -/
theorem TInv_tstep (a : TouchSt) (op : Op) (h : TInv a) : TInv (tstep a op) := by
  obtain ⟨hnd, hknd, hsync, hpw, hb⟩ := h
  cases op with
  | oput k v =>
      show TInv ⟨a.st.put k v, aupsert k a.time a.touch, a.time + 1⟩
      unfold LruCache.put
      by_cases hmem : amem k a.st.nodeMap
      · -- update in place and touch
        rw [if_pos hmem]
        have hkord : k ∈ a.st.order := (hsync k).mp hmem
        refine ⟨touch_append_nodup k a.st.order hnd,
          nodup_keys_aupsert k v a.st.nodeMap hknd, ?_,
          touch_append_pairwise k a.st.order a.touch a.time hnd hpw hb,
          touch_append_bound k a.st.order a.touch a.time hnd hb⟩
        intro x
        show amem x (aupsert k v a.st.nodeMap) = true ↔ x ∈ lerase k a.st.order ++ [k]
        rw [show (amem x (aupsert k v a.st.nodeMap) = true) ↔ (x = k ∨ amem x a.st.nodeMap = true) from
              by rw [amem_aupsert]]
        rw [mem_lerase_append_iff, hsync x]
      · -- fresh key: possibly evict, then append and touch
        rw [if_neg hmem]
        unfold LruCache.addNewNode
        have hkord : k ∉ a.st.order := fun hh => hmem ((hsync k).mpr hh)
        set s1 := if a.st.nodeMap.length ≥ a.st.capacity then a.st.evictLeastRecent else a.st with hs1
        have hInv1 : TInv ⟨s1, a.touch, a.time⟩ := by
          rw [hs1]
          split
          · exact TInv_evict a.st a.touch a.time ⟨hnd, hknd, hsync, hpw, hb⟩
          · exact ⟨hnd, hknd, hsync, hpw, hb⟩
        obtain ⟨hnd1, hknd1, hsync1, hpw1, hb1⟩ := hInv1
        have hkord1 : k ∉ s1.order := by
          intro hh
          have h2 : amem k s1.nodeMap = true := (hsync1 k).mpr hh
          have h3 : amem k a.st.nodeMap = true := by
            rw [hs1] at h2
            by_cases hc : a.st.nodeMap.length ≥ a.st.capacity
            · rw [if_pos hc] at h2
              exact amem_evict_true a.st k hknd h2
            · rw [if_neg hc] at h2
              exact h2
          exact hmem h3
        have hrw : lerase k s1.order = s1.order := lerase_of_not_mem k s1.order hkord1
        refine ⟨?_, ?_, ?_, ?_, ?_⟩
        · show (s1.order ++ [k]).Nodup
          rw [← hrw]
          exact touch_append_nodup k s1.order hnd1
        · show ((aupsert k v s1.nodeMap).map Prod.fst).Nodup
          exact nodup_keys_aupsert k v s1.nodeMap hknd1
        · intro x
          show amem x (aupsert k v s1.nodeMap) = true ↔ x ∈ s1.order ++ [k]
          rw [show (amem x (aupsert k v s1.nodeMap) = true) ↔ (x = k ∨ amem x s1.nodeMap = true) from
                by rw [amem_aupsert]]
          rw [← hrw, mem_lerase_append_iff]
          rw [show (amem x s1.nodeMap = true) ↔ x ∈ s1.order from hsync1 x]
        · show (s1.order ++ [k]).Pairwise
            (fun x y => touchOf (aupsert k a.time a.touch) x < touchOf (aupsert k a.time a.touch) y)
          rw [← hrw]
          exact touch_append_pairwise k s1.order a.touch a.time hnd1 hpw1 hb1
        · show ∀ x ∈ s1.order ++ [k], touchOf (aupsert k a.time a.touch) x < a.time + 1
          rw [← hrw]
          exact touch_append_bound k s1.order a.touch a.time hnd1 hb1
  | oget k =>
      show TInv ⟨(a.st.get k).2,
        if (a.st.get k).1.isSome then aupsert k a.time a.touch else a.touch, a.time + 1⟩
      unfold LruCache.get
      cases hlook : alookup k a.st.nodeMap with
      | none =>
          refine ⟨hnd, hknd, hsync, hpw, ?_⟩
          intro x hx
          exact Nat.lt_succ_of_lt (hb x hx)
      | some v =>
          have hkord : k ∈ a.st.order := by
            refine (hsync k).mp ?_
            unfold amem
            rw [hlook]
            rfl
          refine ⟨touch_append_nodup k a.st.order hnd, hknd, ?_,
            touch_append_pairwise k a.st.order a.touch a.time hnd hpw hb,
            touch_append_bound k a.st.order a.touch a.time hnd hb⟩
          intro x
          show amem x a.st.nodeMap = true ↔ x ∈ lerase k a.st.order ++ [k]
          rw [mem_lerase_append_iff, hsync x]
          constructor
          · exact Or.inr
          · rintro (hx | hx)
            · subst hx; exact hkord
            · exact hx

theorem capacity_put (s : LruCache) (k : Key) (v : Val) :
    (s.put k v).capacity = s.capacity := by
  unfold LruCache.put LruCache.addNewNode LruCache.moveToMostRecent LruCache.evictLeastRecent
  split
  · rfl
  · dsimp only
    split
    · split <;> rfl
    · rfl

theorem capacity_get (s : LruCache) (k : Key) :
    ((s.get k).2).capacity = s.capacity := by
  unfold LruCache.get
  cases alookup k s.nodeMap <;> rfl

theorem capacity_tstep (a : TouchSt) (op : Op) :
    (tstep a op).st.capacity = a.st.capacity := by
  cases op with
  | oput k v => exact capacity_put a.st k v
  | oget k => exact capacity_get a.st k

theorem capacity_trun (cap : Nat) (ops : List Op) :
    (trun cap ops).st.capacity = cap := by
  unfold trun
  have : ∀ (a : TouchSt), (ops.foldl tstep a).st.capacity = a.st.capacity := by
    induction ops with
    | nil => intro a; rfl
    | cons op rest ih =>
        intro a
        rw [List.foldl_cons, ih, capacity_tstep]
  rw [this]
  rfl

/-- A put of a fresh key into a full cache evicts the list head. -/
theorem put_fresh_full (s : LruCache) (k : Key) (v : Val) (e : Key) (rest : List Key)
    (hnmem : ¬ (amem k s.nodeMap = true))
    (hfull : s.nodeMap.length ≥ s.capacity)
    (horder : s.order = e :: rest) :
    s.put k v = { capacity := s.capacity
                  nodeMap := aupsert k v (aerase e s.nodeMap)
                  order := rest ++ [k] } := by
  unfold LruCache.put
  rw [if_neg hnmem]
  unfold LruCache.addNewNode
  dsimp only
  rw [if_pos hfull]
  unfold LruCache.evictLeastRecent
  rw [horder]

/-- The victim of such an eviction is the least recently touched live key:
it heads the list, every other live key was touched later, and the put
leaves it unindexed. -/
theorem lru_victim (a : TouchSt) (k : Key) (v : Val)
    (hInv : TInv a)
    (hfresh : amem k a.st.nodeMap = false)
    (hfull : a.st.nodeMap.length ≥ a.st.capacity)
    (hcap : 1 ≤ a.st.capacity) :
    ∃ e rest,
      a.st.order = e :: rest ∧
      (∀ j ∈ rest, touchOf a.touch e < touchOf a.touch j) ∧
      (a.st.put k v).order = rest ++ [k] ∧
      amem e ((a.st.put k v)).nodeMap = false := by
  obtain ⟨hnd, hknd, hsync, hpw, hb⟩ := hInv
  have hnmem : ¬ (amem k a.st.nodeMap = true) := by rw [hfresh]; simp
  have hlen : 1 ≤ a.st.nodeMap.length := le_trans hcap hfull
  have hne : a.st.nodeMap ≠ [] := by
    intro hh
    rw [hh] at hlen
    simp at hlen
  obtain ⟨xe, hx⟩ : ∃ xe, xe ∈ a.st.nodeMap := List.exists_mem_of_ne_nil _ hne
  have hxmem : amem xe.1 a.st.nodeMap = true :=
    (amem_iff_mem_keys xe.1 _).mpr (List.mem_map_of_mem Prod.fst hx)
  have hxord : xe.1 ∈ a.st.order := (hsync xe.1).mp hxmem
  obtain ⟨e, rest, horder⟩ : ∃ e rest, a.st.order = e :: rest := by
    cases ho : a.st.order with
    | nil =>
        rw [ho] at hxord
        simp at hxord
    | cons e rest => exact ⟨e, rest, rfl⟩
  have hemem : amem e a.st.nodeMap = true :=
    (hsync e).mpr (by rw [horder]; exact List.mem_cons_self e rest)
  have hek : e ≠ k := by
    intro hh
    rw [hh] at hemem
    rw [hemem] at hfresh
    cases hfresh
  have hput := put_fresh_full a.st k v e rest hnmem hfull horder
  refine ⟨e, rest, horder, ?_, ?_, ?_⟩
  · intro j hj
    rw [horder] at hpw
    exact (List.pairwise_cons.mp hpw).1 j hj
  · rw [hput]
  · rw [hput]
    have h1 : amem e (aerase e a.st.nodeMap) = false := by
      cases hb2 : amem e (aerase e a.st.nodeMap) with
      | false => rfl
      | true =>
          exfalso
          have h2 := (amem_iff_mem_keys e _).mp hb2
          rw [keys_aerase_of_nodup e _ hknd] at h2
          exact hknd.not_mem_erase h2
    cases hb3 : amem e (aupsert k v (aerase e a.st.nodeMap)) with
    | false => rfl
    | true =>
        exfalso
        have h3 := (amem_aupsert e k v (aerase e a.st.nodeMap)).mp hb3
        rcases h3 with h3 | h3
        · exact hek h3
        · rw [h1] at h3
          cases h3

/-- Every augmented run state is well formed. -/
theorem TInv_trun (cap : Nat) (ops : List Op) : TInv (trun cap ops) := by
  unfold trun
  have hinit : TInv ⟨LruCache.init cap, [], 0⟩ := by
    refine ⟨List.nodup_nil, List.nodup_nil, ?_, List.Pairwise.nil, ?_⟩
    · intro x
      simp [LruCache.init, amem, alookup]
    · intro x hx
      simp [LruCache.init] at hx
  have : ∀ (a : TouchSt), TInv a → TInv (ops.foldl tstep a) := by
    induction ops with
    | nil => intro a ha; exact ha
    | cons op rest ih =>
        intro a ha
        rw [List.foldl_cons]
        exact ih _ (TInv_tstep a op ha)
  exact this _ hinit

namespace HashLruCaches

/-- A put routes to the same shard as the following get, so the sharded
cache inherits the LRU round trip whenever it has at least one shard. -/
theorem hash_put_get_round_trip (hash : Key → Nat) (s : HashLruCaches) (k : Key) (v : Val)
    (hne : s.slices ≠ []) :
    ((s.put hash k v).get hash k).1 = some v := by
  have hpos : 0 < s.slices.length := List.length_pos.mpr hne
  unfold put get calcSliceIndex
  have hlen : (s.slices.modify (fun c => c.put k v) (hash k % s.slices.length)).length
      = s.slices.length := List.length_modify ..
  simp only [hlen]
  have hi : hash k % s.slices.length < s.slices.length := Nat.mod_lt _ hpos
  have hget : s.slices.get? (hash k % s.slices.length)
      = some (s.slices.get ⟨_, hi⟩) := List.get?_eq_get hi
  have hmod : (s.slices.modify (fun c => c.put k v) (hash k % s.slices.length)).get?
      (hash k % s.slices.length) = some ((s.slices.get ⟨_, hi⟩).put k v) := by
    rw [List.get?_eq_getElem?, List.getElem?_modify_eq, ← List.get?_eq_getElem?, hget]; rfl
  simp only [hmod]
  exact LruCache.lru_put_get_round_trip _ _ _

end HashLruCaches

namespace LfuCache

@[simp] theorem nodeMap_removeFromBucket (s : LfuCache) (f : Nat) (k : Key) :
    (s.removeFromBucket f k).1.nodeMap = s.nodeMap := by
  unfold removeFromBucket
  split
  · dsimp only
    split <;> rfl
  · rfl

@[simp] theorem nodeMap_addToBucket (s : LfuCache) (f : Nat) (k : Key) :
    (s.addToBucket f k).nodeMap = s.nodeMap := by
  unfold addToBucket; split <;> rfl

@[simp] theorem nodeMap_updateMinFreq (s : LfuCache) :
    s.updateMinFreq.nodeMap = s.nodeMap := by
  unfold updateMinFreq
  dsimp only
  split <;> rfl

@[simp] theorem nodeMap_recomputeAvg (s : LfuCache) :
    s.recomputeAvg.nodeMap = s.nodeMap := rfl

/-- The value a key indexes, ignoring its frequency. -/
def valueOf (k : Key) (s : LfuCache) : Option Val :=
  (alookup k s.nodeMap).map Prod.fst

theorem valueOf_increaseFrequency (s : LfuCache) (k x : Key) :
    valueOf x (s.increaseFrequency k) = valueOf x s := by
  unfold increaseFrequency
  cases hk : alookup k s.nodeMap with
  | none => rfl
  | some vf =>
      obtain ⟨v, f⟩ := vf
      dsimp only
      by_cases hxk : x = k
      · subst hxk
        split <;>
          simp [valueOf, alookup_upsert_self, hk]
      · split <;>
          simp [valueOf, alookup_upsert_ne x k _ _ hxk]

theorem valueOf_ageStep (t : LfuCache) (a x : Key) :
    valueOf x (ageStep t a) = valueOf x t := by
  unfold ageStep
  cases ha : alookup a t.nodeMap with
  | none => rfl
  | some vf =>
      obtain ⟨v, f⟩ := vf
      simp only [valueOf, nodeMap_addToBucket]
      by_cases hxa : x = a
      · subst hxa; simp [alookup_upsert_self, ha]
      · simp [alookup_upsert_ne x a _ _ hxa]

theorem valueOf_foldl_ageStep (l : List Key) :
    ∀ (t : LfuCache) (x : Key), valueOf x (l.foldl ageStep t) = valueOf x t := by
  induction l with
  | nil => intro t x; rfl
  | cons a rest ih =>
      intro t x
      rw [List.foldl_cons, ih, valueOf_ageStep]

theorem valueOf_ageAll (s : LfuCache) (x : Key) :
    valueOf x s.ageAll = valueOf x s := by
  unfold ageAll
  simp only [valueOf, nodeMap_recomputeAvg]
  exact valueOf_foldl_ageStep _ _ x

theorem valueOf_maybeAge (s : LfuCache) (x : Key) :
    valueOf x s.maybeAge = valueOf x s := by
  unfold maybeAge
  split
  · exact valueOf_ageAll s x
  · rfl

/-- The hit/miss result of get is exactly the indexed value. -/
theorem lfu_get_fst (s : LfuCache) (k : Key) : (s.get k).1 = valueOf k s := by
  unfold get valueOf
  cases h : alookup k s.nodeMap with
  | none => rfl
  | some vf => obtain ⟨v, f⟩ := vf; rfl

theorem valueOf_putCore_self (s : LfuCache) (k : Key) (v : Val) :
    valueOf k (s.putCore k v) = some v := by
  unfold putCore
  cases h : alookup k s.nodeMap with
  | none =>
      simp only [valueOf, nodeMap_recomputeAvg, nodeMap_addToBucket]
      simp [alookup_upsert_self]
  | some vf =>
      obtain ⟨v0, f⟩ := vf
      have : valueOf k (({ s with nodeMap := aupsert k (v, f) s.nodeMap } :
          LfuCache).increaseFrequency k) = some v := by
        rw [valueOf_increaseFrequency]
        simp [valueOf, alookup_upsert_self]
      exact this

/-- put then get returns the value just put (the LFU round trip, for a
positive capacity). -/
theorem lfu_put_get_round_trip (s : LfuCache) (k : Key) (v : Val)
    (hcap : s.capacity ≠ 0) :
    ((s.put k v).get k).1 = some v := by
  rw [lfu_get_fst]
  unfold put
  rw [if_neg hcap, valueOf_maybeAge, valueOf_putCore_self]

end LfuCache

namespace ArcNew

/-- The hit/miss result of get is exactly the indexed value. -/
theorem arc_get_fst (s : ArcSt) (k : Key) :
    (get s k).1 = (alookup k s.map).map Prod.fst := by
  unfold get
  cases h : alookup k s.map with
  | none =>
      dsimp only
      split
      · rfl
      · split <;> rfl
  | some vt => obtain ⟨v, t⟩ := vt; rfl

theorem map_addToT1MRU (s : ArcSt) (k : Key) (v : Val) :
    (s.addToT1MRU k v).map = aupsert k (v, ArcTag.T1) s.map := rfl

theorem map_addToT2MRU (s : ArcSt) (k : Key) (v : Val) :
    (s.addToT2MRU k v).map = aupsert k (v, ArcTag.T2) s.map := rfl

/-- After put, the key indexes the new value (for a positive capacity). -/
theorem arc_lookup_put_self (s : ArcSt) (k : Key) (v : Val) (hcap : s.capacity ≠ 0) :
    (alookup k (put s k v).map).map Prod.fst = some v := by
  unfold put
  cases h : alookup k s.map with
  | some vt =>
      obtain ⟨v0, tag⟩ := vt
      dsimp only
      unfold ArcSt.moveToT2
      have hl : alookup k (aupsert k (v, tag) s.map) = some (v, tag) :=
        alookup_upsert_self ..
      dsimp only
      rw [hl]
      dsimp only
      cases tag <;> simp [alookup_upsert_self]
  | none =>
      by_cases hb1 : k ∈ s.b1k
      · simp only [hb1, if_true]
        rw [map_addToT2MRU, alookup_upsert_self]; rfl
      · by_cases hb2 : k ∈ s.b2k
        · simp only [hb1, hb2, if_true, if_false]
          rw [map_addToT2MRU, alookup_upsert_self]; rfl
        · simp only [hb1, hb2, if_false, hcap]
          rw [map_addToT1MRU, alookup_upsert_self]; rfl

/-- put then get returns the value just put (the ARC round trip, for a
positive capacity). -/
theorem arc_put_get_round_trip (s : ArcSt) (k : Key) (v : Val) (hcap : s.capacity ≠ 0) :
    (get (put s k v) k).1 = some v := by
  rw [arc_get_fst]
  exact arc_lookup_put_self s k v hcap

/-! #### The p adjustment on ghost hits (claim C3) -/

theorem p_evictFromT1ToB1 (s : ArcSt) : (evictFromT1ToB1 s).p = s.p := by
  unfold evictFromT1ToB1
  cases s.t1.getLast? <;> rfl

theorem p_evictFromT2ToB2 (s : ArcSt) : (evictFromT2ToB2 s).p = s.p := by
  unfold evictFromT2ToB2
  cases s.t2.getLast? <;> rfl

theorem p_replace (s : ArcSt) (b : Bool) : (replace s b).p = s.p := by
  unfold replace
  split
  · exact p_evictFromT1ToB1 s
  · exact p_evictFromT2ToB2 s

/-- The value of p after a ghost hit in B1, as the code computes it: the
ghost-list sizes are taken after the hit key's removal, and an empty B1
contributes a fixed increment of 1 (not |B2|). -/
def pAfterB1Hit (s : ArcSt) (k : Key) : Nat :=
  let b1s := (lerase k s.b1).length
  let b2s := s.b2.length
  min s.capacity (s.p + max 1 (if b1s = 0 then 1 else b2s / b1s))

/-- The value of p after a ghost hit in B2, symmetric to pAfterB1Hit
(Nat subtraction models the clamp at 0). -/
def pAfterB2Hit (s : ArcSt) (k : Key) : Nat :=
  let b1s := s.b1.length
  let b2s := (lerase k s.b2).length
  s.p - max 1 (if b2s = 0 then 1 else b1s / b2s)

theorem get_b1_hit_p (s : ArcSt) (k : Key)
    (hmiss : alookup k s.map = none) (hb1 : k ∈ s.b1k) :
    ((get s k).2).p = pAfterB1Hit s k := by
  unfold get
  rw [hmiss]
  dsimp only
  rw [if_pos hb1]
  dsimp only
  rw [p_replace]
  rfl

theorem put_b1_hit_p (s : ArcSt) (k : Key) (v : Val)
    (hmiss : alookup k s.map = none) (hb1 : k ∈ s.b1k) :
    (put s k v).p = pAfterB1Hit s k := by
  unfold put
  rw [hmiss]
  dsimp only
  rw [if_pos hb1]
  show (((replace _ true).addToT2MRU k v)).p = _
  rw [show ∀ (t : ArcSt) (a : Key) (w : Val), (t.addToT2MRU a w).p = t.p from
        fun _ _ _ => rfl]
  rw [p_replace]
  rfl

theorem ite_sub_clamp (a d : Nat) : (if a > d then a - d else 0) = a - d := by
  split <;> omega

theorem get_b2_hit_p (s : ArcSt) (k : Key)
    (hmiss : alookup k s.map = none) (hb1 : k ∉ s.b1k) (hb2 : k ∈ s.b2k) :
    ((get s k).2).p = pAfterB2Hit s k := by
  unfold get
  rw [hmiss]
  dsimp only
  rw [if_neg hb1, if_pos hb2]
  dsimp only
  rw [p_replace]
  unfold ArcSt.adjustPOnB2Hit pAfterB2Hit
  dsimp only
  rw [ite_sub_clamp]

theorem put_b2_hit_p (s : ArcSt) (k : Key) (v : Val)
    (hmiss : alookup k s.map = none) (hb1 : k ∉ s.b1k) (hb2 : k ∈ s.b2k) :
    (put s k v).p = pAfterB2Hit s k := by
  unfold put
  rw [hmiss]
  dsimp only
  rw [if_neg hb1, if_pos hb2]
  show (((replace _ false).addToT2MRU k v)).p = _
  rw [show ∀ (t : ArcSt) (a : Key) (w : Val), (t.addToT2MRU a w).p = t.p from
        fun _ _ _ => rfl]
  rw [p_replace]
  unfold ArcSt.adjustPOnB2Hit pAfterB2Hit
  dsimp only
  rw [ite_sub_clamp]

/-! #### Capacity zero (claim C9) -/

theorem put_init_zero (k : Key) (v : Val) : put (ArcSt.init 0) k v = ArcSt.init 0 := by
  simp [put, ArcSt.init, alookup]

theorem get_init_zero (k : Key) : get (ArcSt.init 0) k = (none, ArcSt.init 0) := by
  simp [get, ArcSt.init, alookup]

theorem step_init_zero (op : Op) : step (ArcSt.init 0) op = ArcSt.init 0 := by
  cases op with
  | oput k v => exact put_init_zero k v
  | oget k => simp [step, get_init_zero]

theorem run_zero (ops : List Op) : run 0 ops = ArcSt.init 0 := by
  unfold run
  induction ops with
  | nil => rfl
  | cons op rest ih =>
      rw [List.foldl_cons, step_init_zero]
      exact ih

end ArcNew

/-! #### Behavioural equality of the two ARC classes (claim C10)

The two transcriptions differ only in the two places noted above, and both
differences are confined to list-empty cases that cannot fire: the lemmas
below show the B1 trim in ArcCache::put runs with a provably non-empty B1,
and replace only reaches evictFromT1ToB1 under its own non-empty-T1 guard. -/

namespace ArcCache

/-- In the fresh-key branch that trims B1, the branch conditions force B1 to
be non-empty, so back() on B1 is well defined. -/
theorem trim_branch_b1_ne_nil (s : ArcSt)
    (hge : s.t1.length + s.b1.length ≥ s.capacity)
    (hlt : s.t1.length < s.capacity) : s.b1 ≠ [] := by
  intro hnil
  rw [hnil] at hge
  simp at hge
  omega

/-- replace reaches evictFromT1ToB1 only under its non-empty-T1 guard. -/
theorem replace_empty_t1 (s : ArcSt) (b : Bool) (h : s.t1 = []) :
    replace s b = evictFromT2ToB2 s := by
  simp [replace, h]

theorem evictFromT1ToB1_eq : @evictFromT1ToB1 = @ArcNew.evictFromT1ToB1 := rfl

theorem evictFromT2ToB2_eq : @evictFromT2ToB2 = @ArcNew.evictFromT2ToB2 := rfl

theorem replace_eq : @replace = @ArcNew.replace := rfl

theorem get_eq : @get = @ArcNew.get := rfl

theorem put_eq (s : ArcSt) (k : Key) (v : Val) : put s k v = ArcNew.put s k v := by
  unfold put ArcNew.put
  have hrepl : @replace = @ArcNew.replace := replace_eq
  cases h : alookup k s.map with
  | some vt => rfl
  | none =>
      dsimp only
      by_cases hb1 : k ∈ s.b1k
      · simp [hb1, hrepl]
      · by_cases hb2 : k ∈ s.b2k
        · simp [hb1, hb2, hrepl]
        · by_cases hc : s.capacity = 0
          · simp [hb1, hb2, hc]
          · simp only [hb1, hb2, hc, if_neg, if_false, ite_false]
            by_cases hfull : s.t1.length + s.b1.length ≥ s.capacity
            · simp only [hfull, if_true, ite_true]
              by_cases hlt : s.t1.length < s.capacity
              · simp only [hlt, if_true, ite_true]
                cases hg : s.b1.getLast? with
                | none =>
                    have hnil : s.b1 = [] := by
                      simpa using hg
                    simp [hnil]
                | some tail =>
                    have hne : s.b1 ≠ [] := by
                      intro hnil
                      rw [hnil] at hg
                      simp at hg
                    simp [hne, hg, List.isEmpty_iff]
              · simp [hlt, hrepl]
            · simp [hfull, hrepl]

theorem step_eq (s : ArcSt) (op : Op) : step s op = ArcNew.step s op := by
  cases op with
  | oput k v => exact put_eq s k v
  | oget k => simp [step, ArcNew.step, get_eq]

theorem run_eq (cap : Nat) (ops : List Op) : run cap ops = ArcNew.run cap ops := by
  unfold run ArcNew.run
  have : ∀ (s : ArcSt), ops.foldl step s = ops.foldl ArcNew.step s := by
    induction ops with
    | nil => intro s; rfl
    | cons op rest ih =>
        intro s
        rw [List.foldl_cons, List.foldl_cons, step_eq]
        exact ih _
  exact this _

theorem outs_eq (s : ArcSt) (ops : List Op) : outs s ops = ArcNew.outs s ops := by
  induction ops generalizing s with
  | nil => rfl
  | cons op rest ih =>
      unfold outs ArcNew.outs
      rw [step_eq, ih]
      cases op with
      | oput k v => rfl
      | oget k => simp [out, ArcNew.out, get_eq]

end ArcCache

/-! ### LFU structural well-formedness (claims C5 and C6)

The bucket/index coordination invariant of an LFU instance: unique keys in
the index and unique labels in the bucket map, no empty buckets, buckets
free of duplicates, every bucketed key indexed with the bucket's label as
its frequency, every indexed key present in the bucket of its frequency,
all frequencies at least 1 and at least minFreq_, and the running total
equal to the sum of the frequencies.  All conjuncts are bounded, so the
predicate is decidable on concrete states. -/

/-- The frequency under which a key is indexed, if any. -/
def freqOf (s : LfuCache) (k : Key) : Option Nat :=
  (alookup k s.nodeMap).map Prod.snd

def LfuInv (s : LfuCache) : Prop :=
  (s.nodeMap.map Prod.fst).Nodup ∧
  (s.freqMap.map Prod.fst).Nodup ∧
  (∀ fb ∈ s.freqMap, fb.2 ≠ []) ∧
  (∀ fb ∈ s.freqMap, fb.2.Nodup) ∧
  (∀ fb ∈ s.freqMap, ∀ k ∈ fb.2, freqOf s k = some fb.1) ∧
  (∀ e ∈ s.nodeMap, e.1 ∈ (alookup e.2.2 s.freqMap).getD []) ∧
  (∀ e ∈ s.nodeMap, 1 ≤ e.2.2) ∧
  (∀ e ∈ s.nodeMap, s.minFreq ≤ e.2.2) ∧
  s.curTotalNum = (s.nodeMap.map (fun e => e.2.2)).sum

instance lfuInvDecidable (s : LfuCache) : Decidable (LfuInv s) := by
  unfold LfuInv
  infer_instance

theorem alookup_self_of_nodup (m : List (Key × α))
    (h : (m.map Prod.fst).Nodup) : ∀ e ∈ m, alookup e.1 m = some e.2 := by
  induction m with
  | nil => intro e he; simp at he
  | cons hd t ih =>
      obtain ⟨a, b⟩ := hd
      simp only [List.map_cons, List.nodup_cons] at h
      intro e he
      rw [List.mem_cons] at he
      rcases he with he | he
      · subst he
        simp [alookup]
      · have hea : a ≠ e.1 := by
          intro hh
          exact h.1 (hh ▸ List.mem_map_of_mem Prod.fst he)
        simp only [alookup, hea, if_false]
        exact ih h.2 e he

theorem alookup_aerase_self_of_nodup (k : Key) (m : List (Key × α))
    (h : (m.map Prod.fst).Nodup) : alookup k (aerase k m) = none := by
  cases hl : alookup k (aerase k m) with
  | none => rfl
  | some b =>
      exfalso
      have hmem : k ∈ (aerase k m).map Prod.fst :=
        mem_keys_of_alookup_isSome k _ (by rw [hl]; rfl)
      rw [keys_aerase_of_nodup k m h] at hmem
      exact h.not_mem_erase hmem

theorem foldl_min_le_init (fs : List Nat) : ∀ f : Nat, fs.foldl min f ≤ f := by
  induction fs with
  | nil => intro f; simp
  | cons a t ih =>
      intro f
      rw [List.foldl_cons]
      exact le_trans (ih (min f a)) (Nat.min_le_left f a)

theorem foldl_min_le (fs : List Nat) :
    ∀ (f x : Nat), x ∈ f :: fs → fs.foldl min f ≤ x := by
  induction fs with
  | nil =>
      intro f x hx
      rw [List.mem_singleton] at hx
      simp [hx]
  | cons a t ih =>
      intro f x hx
      rw [List.foldl_cons]
      rcases List.mem_cons.mp hx with hx1 | hx2
      · rw [hx1]
        exact le_trans (foldl_min_le_init t (min f a)) (Nat.min_le_left f a)
      · rcases List.mem_cons.mp hx2 with hx2 | hx3
        · rw [hx2]
          exact le_trans (foldl_min_le_init t (min f a)) (Nat.min_le_right f a)
        · exact ih (min f a) x (List.mem_cons_of_mem _ hx3)

theorem foldl_min_mem (fs : List Nat) : ∀ f : Nat, fs.foldl min f ∈ f :: fs := by
  induction fs with
  | nil => intro f; simp
  | cons a t ih =>
      intro f
      rw [List.foldl_cons]
      have hmem := ih (min f a)
      rcases List.mem_cons.mp hmem with h | h
      · rcases min_choice f a with hm | hm
        · rw [h, hm]
          exact List.mem_cons_self f (a :: t)
        · rw [h, hm]
          exact List.mem_cons_of_mem f (List.mem_cons_self a t)
      · exact List.mem_cons_of_mem f (List.mem_cons_of_mem a h)

theorem le_sum_of_mem {l : List Nat} {x : Nat} (hx : x ∈ l) : x ≤ l.sum := by
  induction l with
  | nil => simp at hx
  | cons a t ih =>
      rw [List.sum_cons]
      rcases List.mem_cons.mp hx with h | h
      · rw [h]
        exact Nat.le_add_right a t.sum
      · exact le_trans (ih h) (Nat.le_add_left t.sum a)

namespace LfuCache

@[simp] theorem curTotalNum_removeFromBucket (s : LfuCache) (f : Nat) (k : Key) :
    (s.removeFromBucket f k).1.curTotalNum = s.curTotalNum := by
  unfold removeFromBucket
  split
  · dsimp only
    split <;> rfl
  · rfl

@[simp] theorem curTotalNum_updateMinFreq (s : LfuCache) :
    s.updateMinFreq.curTotalNum = s.curTotalNum := by
  unfold updateMinFreq
  dsimp only
  split <;> rfl

@[simp] theorem curTotalNum_recomputeAvg (s : LfuCache) :
    s.recomputeAvg.curTotalNum = s.curTotalNum := rfl

@[simp] theorem minFreq_recomputeAvg (s : LfuCache) :
    s.recomputeAvg.minFreq = s.minFreq := rfl

/-- The shape of one eviction, given a non-empty bucket at the (possibly
lazily corrected) minimum frequency whose head is indexed. -/
theorem evict_props (s t : LfuCache) (victim : Key) (vv : Val) (f : Nat) (rest : List Key)
    (ht : (if (alookup s.minFreq s.freqMap).isSome then s else s.updateMinFreq) = t)
    (h0 : s.nodeMap.isEmpty = false)
    (hb : alookup t.minFreq t.freqMap = some (victim :: rest))
    (hlook : alookup victim s.nodeMap = some (vv, f)) :
    (evict s).nodeMap = aerase victim s.nodeMap ∧
    (evict s).curTotalNum = s.curTotalNum - f := by
  have hnodet : t.nodeMap = s.nodeMap := by
    rw [← ht]
    split
    · rfl
    · exact nodeMap_updateMinFreq s
  have htott : t.curTotalNum = s.curTotalNum := by
    rw [← ht]
    split
    · rfl
    · exact curTotalNum_updateMinFreq s
  have hlook_t : alookup victim t.nodeMap = some (vv, f) := by
    rw [hnodet]
    exact hlook
  have h0p : ¬ (s.nodeMap.isEmpty = true) := by
    rw [h0]
    simp
  unfold evict
  rw [if_neg h0p]
  dsimp only
  rw [ht, hb]
  dsimp only
  rw [hlook_t]
  constructor
  · rw [show ∀ u : LfuCache, u.recomputeAvg.nodeMap = u.nodeMap from fun _ => rfl]
    dsimp only
    split
    · rw [nodeMap_updateMinFreq, nodeMap_removeFromBucket, hnodet]
    · rw [nodeMap_removeFromBucket, hnodet]
  · rw [show ∀ u : LfuCache, u.recomputeAvg.curTotalNum = u.curTotalNum from fun _ => rfl]
    dsimp only
    split
    · rw [curTotalNum_updateMinFreq, curTotalNum_removeFromBucket, htott]
      simp
    · rw [curTotalNum_removeFromBucket, htott]
      simp

@[simp] theorem freqMap_updateMinFreq (s : LfuCache) :
    s.updateMinFreq.freqMap = s.freqMap := by
  unfold updateMinFreq
  dsimp only
  split <;> rfl

theorem isEmpty_false_of_ne_nil {l : List α} (h : l ≠ []) : l.isEmpty = false := by
  cases hh : l.isEmpty with
  | false => rfl
  | true => exact absurd (List.isEmpty_iff.mp hh) h

/-- Under the invariant, evicting from a non-empty LFU removes the head of
the bucket holding the minimum live frequency: the victim is indexed with
that frequency, no live key has a smaller frequency, the victim's index
entry disappears, and the running total drops by exactly the victim's
frequency. -/
theorem evict_victim (s : LfuCache) (hInv : LfuInv s) (hne : s.nodeMap ≠ []) :
    ∃ victim vv f rest,
      alookup victim s.nodeMap = some (vv, f) ∧
      (∀ e ∈ s.nodeMap, f ≤ e.2.2) ∧
      alookup f s.freqMap = some (victim :: rest) ∧
      (evict s).nodeMap = aerase victim s.nodeMap ∧
      alookup victim (evict s).nodeMap = none ∧
      (evict s).curTotalNum + f = s.curTotalNum := by
  obtain ⟨hknd, hfnd, hnoempty, hbnd, hbcorr, hmem, hone, hminle, htot⟩ := hInv
  have h0 : s.nodeMap.isEmpty = false := isEmpty_false_of_ne_nil hne
  have hfm_ne : s.freqMap ≠ [] := by
    obtain ⟨e0, he0⟩ := List.exists_mem_of_ne_nil _ hne
    intro hnil
    have := hmem e0 he0
    rw [hnil] at this
    simp [alookup] at this
  -- the corrected state t
  by_cases hA : (alookup s.minFreq s.freqMap).isSome
  case pos =>
    have htmin : ∀ e ∈ s.nodeMap, s.minFreq ≤ e.2.2 := hminle
    obtain ⟨b, hbook⟩ := Option.isSome_iff_exists.mp hA
    have hbin : (s.minFreq, b) ∈ s.freqMap := mem_of_alookup_eq_some _ _ _ hbook
    have hbne : b ≠ [] := hnoempty (s.minFreq, b) hbin
    obtain ⟨victim, rest, hbcons⟩ : ∃ victim rest, b = victim :: rest := by
      cases b with
      | nil => exact absurd rfl hbne
      | cons victim rest => exact ⟨victim, rest, rfl⟩
    subst hbcons
    have hvfreq : freqOf s victim = some s.minFreq :=
      hbcorr (s.minFreq, victim :: rest) hbin victim (List.mem_cons_self _ _)
    obtain ⟨vv, hlook⟩ : ∃ vv, alookup victim s.nodeMap = some (vv, s.minFreq) := by
      unfold freqOf at hvfreq
      cases hl : alookup victim s.nodeMap with
      | none => rw [hl] at hvfreq; simp at hvfreq
      | some p =>
          rw [hl] at hvfreq
          obtain ⟨vv, ff⟩ := p
          simp at hvfreq
          cases hvfreq
          exact ⟨vv, rfl⟩
    have hprops := evict_props s s victim vv s.minFreq rest (by rw [if_pos hA]) h0
        hbook hlook
    refine ⟨victim, vv, s.minFreq, rest, hlook, htmin, hbook, hprops.1, ?_, ?_⟩
    · rw [hprops.1]
      exact alookup_aerase_self_of_nodup victim s.nodeMap hknd
    · rw [hprops.2]
      have hvm : (victim, vv, s.minFreq) ∈ s.nodeMap := mem_of_alookup_eq_some _ _ _ hlook
      have hle : s.minFreq ≤ s.curTotalNum := by
        rw [htot]
        exact le_sum_of_mem
          (List.mem_map_of_mem (fun e => e.2.2) hvm :
            (s.minFreq : Nat) ∈ s.nodeMap.map (fun e => e.2.2))
      omega
  case neg =>
    -- minFreq_ points at no bucket: evict first recomputes it
    set t := s.updateMinFreq with htdef
    have hteq : (if (alookup s.minFreq s.freqMap).isSome then s else s.updateMinFreq) = t := by
      rw [if_neg hA]
    have hfilter : s.freqMap.filter (fun fb => ¬ fb.2.isEmpty) = s.freqMap := by
      rw [List.filter_eq_self]
      intro fb hfb
      simp [isEmpty_false_of_ne_nil (hnoempty fb hfb)]
    obtain ⟨fb0, fbs, hfm⟩ : ∃ fb0 fbs, s.freqMap = fb0 :: fbs := by
      cases hh : s.freqMap with
      | nil => exact absurd hh hfm_ne
      | cons fb0 fbs => exact ⟨fb0, fbs, rfl⟩
    have htmin_val : t.minFreq = (fbs.map Prod.fst).foldl min fb0.1 := by
      rw [htdef]
      unfold updateMinFreq
      dsimp only
      rw [hfilter, hfm]
      rfl
    have hlabels : t.minFreq ∈ fb0.1 :: fbs.map Prod.fst := by
      rw [htmin_val]
      exact foldl_min_mem _ _
    have hlabels2 : t.minFreq ∈ s.freqMap.map Prod.fst := by
      rw [hfm]
      exact hlabels
    have hsome : (alookup t.minFreq t.freqMap).isSome := by
      rw [show t.freqMap = s.freqMap from freqMap_updateMinFreq s]
      exact alookup_isSome_of_mem_keys _ _ hlabels2
    have htmin : ∀ e ∈ s.nodeMap, t.minFreq ≤ e.2.2 := by
      intro e he
      have hbmem := hmem e he
      have hesome : (alookup e.2.2 s.freqMap).isSome := by
        cases hl : alookup e.2.2 s.freqMap with
        | none => rw [hl] at hbmem; simp at hbmem
        | some b => rfl
      have : e.2.2 ∈ s.freqMap.map Prod.fst := mem_keys_of_alookup_isSome _ _ hesome
      rw [hfm] at this
      rw [htmin_val]
      exact foldl_min_le _ _ _ (by simpa using this)
    obtain ⟨b, hbook⟩ := Option.isSome_iff_exists.mp hsome
    have hbook_s : alookup t.minFreq s.freqMap = some b := by
      rw [show t.freqMap = s.freqMap from freqMap_updateMinFreq s] at hbook
      exact hbook
    have hbin : (t.minFreq, b) ∈ s.freqMap := mem_of_alookup_eq_some _ _ _ hbook_s
    have hbne : b ≠ [] := hnoempty (t.minFreq, b) hbin
    obtain ⟨victim, rest, hbcons⟩ : ∃ victim rest, b = victim :: rest := by
      cases b with
      | nil => exact absurd rfl hbne
      | cons victim rest => exact ⟨victim, rest, rfl⟩
    subst hbcons
    have hvfreq : freqOf s victim = some t.minFreq :=
      hbcorr (t.minFreq, victim :: rest) hbin victim (List.mem_cons_self _ _)
    obtain ⟨vv, hlook⟩ : ∃ vv, alookup victim s.nodeMap = some (vv, t.minFreq) := by
      unfold freqOf at hvfreq
      cases hl : alookup victim s.nodeMap with
      | none => rw [hl] at hvfreq; simp at hvfreq
      | some p =>
          rw [hl] at hvfreq
          obtain ⟨vv, ff⟩ := p
          simp at hvfreq
          cases hvfreq
          exact ⟨vv, rfl⟩
    have hprops := evict_props s t victim vv t.minFreq rest hteq h0 hbook hlook
    refine ⟨victim, vv, t.minFreq, rest, hlook, htmin, hbook_s, hprops.1, ?_, ?_⟩
    · rw [hprops.1]
      exact alookup_aerase_self_of_nodup victim s.nodeMap hknd
    · rw [hprops.2]
      have hvm : (victim, vv, t.minFreq) ∈ s.nodeMap := mem_of_alookup_eq_some _ _ _ hlook
      have hle : t.minFreq ≤ s.curTotalNum := by
        rw [htot]
        exact le_sum_of_mem
          (List.mem_map_of_mem (fun e => e.2.2) hvm :
            (t.minFreq : Nat) ∈ s.nodeMap.map (fun e => e.2.2))
      omega

theorem alookup_none_ageStep (t : LfuCache) (k x : Key)
    (hx : alookup x t.nodeMap = none) : alookup x (ageStep t k).nodeMap = none := by
  unfold ageStep
  cases hk : alookup k t.nodeMap with
  | none => exact hx
  | some p =>
      obtain ⟨v, f⟩ := p
      dsimp only
      rw [nodeMap_addToBucket]
      have hxk : x ≠ k := by
        intro hh
        rw [hh, hk] at hx
        cases hx
      rw [alookup_upsert_ne x k _ _ hxk]
      exact hx

theorem alookup_none_foldl_ageStep (l : List Key) :
    ∀ (t : LfuCache) (x : Key), alookup x t.nodeMap = none →
      alookup x (l.foldl ageStep t).nodeMap = none := by
  induction l with
  | nil => intro t x hx; exact hx
  | cons k rest ih =>
      intro t x hx
      rw [List.foldl_cons]
      exact ih _ x (alookup_none_ageStep t k x hx)

theorem alookup_none_ageAll (t : LfuCache) (x : Key)
    (hx : alookup x t.nodeMap = none) : alookup x t.ageAll.nodeMap = none := by
  unfold ageAll
  rw [nodeMap_recomputeAvg]
  exact alookup_none_foldl_ageStep _ _ x hx

theorem alookup_none_maybeAge (t : LfuCache) (x : Key)
    (hx : alookup x t.nodeMap = none) : alookup x t.maybeAge.nodeMap = none := by
  unfold maybeAge
  split
  · exact alookup_none_ageAll t x hx
  · exact hx

/-- After a fresh-key put at full positive capacity, a key absent both from
the evicted state and different from the new key stays unindexed. -/
theorem put_fresh_keeps_absent (s : LfuCache) (k : Key) (v : Val) (x : Key)
    (hxk : x ≠ k)
    (hx : alookup x (evict s).nodeMap = none)
    (hfresh : alookup k s.nodeMap = none)
    (hfull : s.nodeMap.length ≥ s.capacity)
    (hcap : s.capacity ≠ 0) :
    alookup x (put s k v).nodeMap = none := by
  unfold put
  rw [if_neg hcap]
  apply alookup_none_maybeAge
  unfold putCore
  rw [hfresh]
  dsimp only
  rw [if_pos hfull]
  rw [nodeMap_recomputeAvg, nodeMap_addToBucket]
  rw [alookup_upsert_ne x k _ _ hxk]
  exact hx

/-! #### Aging (claim C6) -/

theorem mem_buckets_flatten (L : List (Nat × List Key)) (x : Key) :
    x ∈ (L.map Prod.snd).flatten ↔ ∃ fb ∈ L, x ∈ fb.2 := by
  rw [List.mem_flatten]
  constructor
  · rintro ⟨b, hb, hx⟩
    obtain ⟨fb, hfb, hfb2⟩ := List.mem_map.mp hb
    exact ⟨fb, hfb, hfb2 ▸ hx⟩
  · rintro ⟨fb, hfb, hx⟩
    exact ⟨fb.2, List.mem_map_of_mem Prod.snd hfb, hx⟩

theorem buckets_flatten_nodup (nm : List (Key × Val × Nat)) :
    ∀ (L : List (Nat × List Key)),
      (∀ fb ∈ L, fb.2.Nodup) →
      (∀ fb ∈ L, ∀ k ∈ fb.2, (alookup k nm).map Prod.snd = some fb.1) →
      (L.map Prod.fst).Nodup →
      ((L.map Prod.snd).flatten).Nodup := by
  intro L
  induction L with
  | nil => intro _ _ _; simp
  | cons fb rest ih =>
      intro hbnd hc hlab
      simp only [List.map_cons, List.flatten_cons]
      rw [List.nodup_append]
      simp only [List.map_cons, List.nodup_cons] at hlab
      refine ⟨hbnd fb (List.mem_cons_self _ _), ?_, ?_⟩
      · exact ih (fun g hg => hbnd g (List.mem_cons_of_mem _ hg))
          (fun g hg => hc g (List.mem_cons_of_mem _ hg)) hlab.2
      · intro x hx hx2
        obtain ⟨gb, hgb, hxg⟩ := (mem_buckets_flatten rest x).mp hx2
        have hf := hc fb (List.mem_cons_self _ _) x hx
        have hg := hc gb (List.mem_cons_of_mem _ hgb) x hxg
        rw [hf] at hg
        have hlabeq := Option.some.inj hg
        have hgbl : gb.1 ∈ rest.map Prod.fst := List.mem_map_of_mem Prod.fst hgb
        rw [← hlabeq] at hgbl
        exact hlab.1 hgbl

@[simp] theorem freqMap_recomputeAvg (s : LfuCache) :
    s.recomputeAvg.freqMap = s.freqMap := rfl

@[simp] theorem curTotalNum_addToBucket (s : LfuCache) (f : Nat) (k : Key) :
    (s.addToBucket f k).curTotalNum = s.curTotalNum := by
  unfold addToBucket
  split <;> rfl

theorem keys_ageStep (acc : LfuCache) (k : Key) :
    (ageStep acc k).nodeMap.map Prod.fst = acc.nodeMap.map Prod.fst := by
  unfold ageStep
  cases hk : alookup k acc.nodeMap with
  | none => rfl
  | some p =>
      obtain ⟨v, f⟩ := p
      dsimp only
      rw [nodeMap_addToBucket]
      rw [keys_aupsert]
      rw [hk]
      rfl

theorem keys_foldl_ageStep (l : List Key) :
    ∀ acc : LfuCache, (l.foldl ageStep acc).nodeMap.map Prod.fst
      = acc.nodeMap.map Prod.fst := by
  induction l with
  | nil => intro acc; rfl
  | cons a rest ih =>
      intro acc
      rw [List.foldl_cons, ih, keys_ageStep]

/-- Membership of a key in the bucket of a given label survives an aging
rebucketing step. -/
theorem bucket_mem_ageStep (acc : LfuCache) (k x : Key) (f : Nat)
    (hx : x ∈ (alookup f acc.freqMap).getD []) :
    x ∈ (alookup f (ageStep acc k).freqMap).getD [] := by
  unfold ageStep
  cases hk : alookup k acc.nodeMap with
  | none => exact hx
  | some p =>
      obtain ⟨v, g0⟩ := p
      dsimp only
      unfold addToBucket
      cases hg : alookup (if g0 > 1 then g0 / 2 else 1) acc.freqMap with
      | some b =>
          dsimp only
          by_cases hgf : (if g0 > 1 then g0 / 2 else 1) = f
          · subst hgf
            rw [alookup_upsert_self]
            rw [hg] at hx
            simp only [Option.getD_some] at hx ⊢
            exact List.mem_append_left _ hx
          · rw [alookup_upsert_ne f _ _ _ (fun hh => hgf hh.symm)]
            exact hx
      | none =>
          dsimp only
          by_cases hgf : (if g0 > 1 then g0 / 2 else 1) = f
          · subst hgf
            rw [hg] at hx
            simp at hx
          · rw [alookup_upsert_ne f _ _ _ (fun hh => hgf hh.symm)]
            exact hx

/-- The rebucketing fold of ageAll, processing a duplicate-free list of
keys whose entries in the accumulator still agree with the reference
index: every processed key ends halved (minimum 1) and in the bucket of
its new frequency, unprocessed keys keep their accumulator entries, and
the total grows by the sum of the new frequencies. -/
theorem foldl_ageStep_props (ref : List (Key × Val × Nat)) (l : List Key) :
    ∀ (acc : LfuCache),
      l.Nodup →
      (∀ x ∈ l, alookup x acc.nodeMap = alookup x ref) →
      (∀ x ∈ l, (alookup x ref).isSome) →
      (∀ x ∈ l, alookup x (l.foldl ageStep acc).nodeMap
          = (alookup x ref).map (fun p => (p.1, if p.2 > 1 then p.2 / 2 else 1))) ∧
      (∀ x, x ∉ l → alookup x (l.foldl ageStep acc).nodeMap = alookup x acc.nodeMap) ∧
      (∀ x ∈ l, x ∈ (alookup (((alookup x ref).map
            (fun p => if p.2 > 1 then p.2 / 2 else 1)).getD 0)
          (l.foldl ageStep acc).freqMap).getD []) ∧
      (l.foldl ageStep acc).curTotalNum = acc.curTotalNum
        + (l.map (fun x => ((alookup x ref).map
            (fun p => if p.2 > 1 then p.2 / 2 else 1)).getD 0)).sum := by
  induction l with
  | nil =>
      intro acc _ _ _
      refine ⟨?_, ?_, ?_, ?_⟩
      · intro x hx; simp at hx
      · intro x _; rfl
      · intro x hx; simp at hx
      · simp
  | cons a rest ih =>
      intro acc hnd hagree hsome
      have hnda := List.nodup_cons.mp hnd
      obtain ⟨pa, hpa⟩ := Option.isSome_iff_exists.mp (hsome a (List.mem_cons_self _ _))
      obtain ⟨va, fa⟩ := pa
      have haacc : alookup a acc.nodeMap = some (va, fa) := by
        rw [hagree a (List.mem_cons_self _ _), hpa]
      have hstep_node : (ageStep acc a).nodeMap
          = aupsert a (va, if fa > 1 then fa / 2 else 1) acc.nodeMap := by
        unfold ageStep
        rw [haacc]
        dsimp only
        rw [nodeMap_addToBucket]
      have hstep_tot : (ageStep acc a).curTotalNum
          = acc.curTotalNum + (if fa > 1 then fa / 2 else 1) := by
        unfold ageStep
        rw [haacc]
        dsimp only
        rw [curTotalNum_addToBucket]
      have hstep_bucket : a ∈ (alookup (if fa > 1 then fa / 2 else 1)
          (ageStep acc a).freqMap).getD [] := by
        unfold ageStep
        rw [haacc]
        dsimp only
        unfold addToBucket
        cases hg : alookup (if fa > 1 then fa / 2 else 1) acc.freqMap with
        | some b =>
            dsimp only
            rw [alookup_upsert_self]
            simp
        | none =>
            dsimp only
            rw [alookup_upsert_self]
            simp
      have hagree2 : ∀ x ∈ rest, alookup x (ageStep acc a).nodeMap = alookup x ref := by
        intro x hxr
        rw [hstep_node]
        have hxa : x ≠ a := fun hh => hnda.1 (hh ▸ hxr)
        rw [alookup_upsert_ne x a _ _ hxa]
        exact hagree x (List.mem_cons_of_mem _ hxr)
      have hsome2 : ∀ x ∈ rest, (alookup x ref).isSome :=
        fun x hxr => hsome x (List.mem_cons_of_mem _ hxr)
      obtain ⟨ih1, ih2, ih3, ih4⟩ := ih (ageStep acc a) hnda.2 hagree2 hsome2
      rw [List.foldl_cons]
      refine ⟨?_, ?_, ?_, ?_⟩
      · intro x hx
        rcases List.mem_cons.mp hx with hx1 | hx2
        · subst hx1
          rw [ih2 x hnda.1, hstep_node, alookup_upsert_self, hpa]
          rfl
        · exact ih1 x hx2
      · intro x hxn
        rw [List.mem_cons, not_or] at hxn
        rw [ih2 x hxn.2, hstep_node, alookup_upsert_ne x a _ _ hxn.1]
      · intro x hx
        rcases List.mem_cons.mp hx with hx1 | hx2
        · subst hx1
          rw [hpa]
          have hb := hstep_bucket
          have : ∀ (u : LfuCache) (g : Nat) (y : Key) (ll : List Key),
              y ∈ (alookup g u.freqMap).getD [] →
              y ∈ (alookup g (ll.foldl ageStep u).freqMap).getD [] := by
            intro u g y ll
            induction ll generalizing u with
            | nil => intro hh; exact hh
            | cons c cs ihc =>
                intro hh
                rw [List.foldl_cons]
                exact ihc _ (bucket_mem_ageStep u c y g hh)
          exact this _ _ _ rest hb
        · exact ih3 x hx2
      · rw [ih4, hstep_tot, List.map_cons, List.sum_cons, hpa]
        simp only [Option.map_some', Option.getD_some]
        omega

/-- The halving rule of ageAll is exactly max(1, freq / 2). -/
theorem newFreq_eq_max (f : Nat) : (if f > 1 then f / 2 else 1) = max 1 (f / 2) := by
  split <;> omega

/-- The aging pass under the invariant: minFreq_ returns to 1, every entry
ends with value intact and frequency max(1, old / 2) (hence at least 1)
and sits in the bucket of its new frequency, and the recounted total is
the sum of the new frequencies. -/
theorem ageAll_props (t : LfuCache) (hInv : LfuInv t) :
    (ageAll t).minFreq = 1 ∧
    (∀ x : Key, alookup x (ageAll t).nodeMap
        = (alookup x t.nodeMap).map (fun p => (p.1, if p.2 > 1 then p.2 / 2 else 1))) ∧
    (∀ e ∈ (ageAll t).nodeMap, 1 ≤ e.2.2) ∧
    (∀ e ∈ (ageAll t).nodeMap, e.1 ∈ (alookup e.2.2 (ageAll t).freqMap).getD []) ∧
    (ageAll t).curTotalNum = ((ageAll t).nodeMap.map (fun e => e.2.2)).sum := by
  obtain ⟨hknd, hfnd, hnoempty, hbnd, hbcorr, hmem, hone, hminle, htot⟩ := hInv
  have hallnd : ((t.freqMap.map Prod.snd).flatten).Nodup := by
    refine buckets_flatten_nodup t.nodeMap t.freqMap hbnd ?_ hfnd
    intro fb hfb x hx
    exact hbcorr fb hfb x hx
  have hallmem : ∀ x, x ∈ (t.freqMap.map Prod.snd).flatten
      ↔ (alookup x t.nodeMap).isSome := by
    intro x
    constructor
    · intro hx
      obtain ⟨fb, hfb, hxfb⟩ := (mem_buckets_flatten t.freqMap x).mp hx
      have hf := hbcorr fb hfb x hxfb
      unfold freqOf at hf
      cases hl : alookup x t.nodeMap with
      | none => rw [hl] at hf; simp at hf
      | some p => rfl
    · intro hx
      obtain ⟨p, hp⟩ := Option.isSome_iff_exists.mp hx
      obtain ⟨vv, f⟩ := p
      have hent : (x, vv, f) ∈ t.nodeMap := mem_of_alookup_eq_some _ _ _ hp
      have hxb := hmem (x, vv, f) hent
      cases hl : alookup f t.freqMap with
      | none =>
          rw [show (x, vv, f).2.2 = f from rfl, hl] at hxb
          simp at hxb
      | some b =>
          rw [show (x, vv, f).2.2 = f from rfl, hl] at hxb
          simp only [Option.getD_some] at hxb
          exact (mem_buckets_flatten t.freqMap x).mpr
            ⟨(f, b), mem_of_alookup_eq_some _ _ _ hl, hxb⟩
  have hprops := foldl_ageStep_props t.nodeMap ((t.freqMap.map Prod.snd).flatten)
      ({ t with freqMap := [], curTotalNum := 0 } : LfuCache) hallnd
      (fun x _ => rfl) (fun x hx => (hallmem x).mp hx)
  obtain ⟨hp1, hp2, hp3, hp4⟩ := hprops
  have hageAll : ageAll t = recomputeAvg
      { ((t.freqMap.map Prod.snd).flatten).foldl ageStep
          ({ t with freqMap := [], curTotalNum := 0 } : LfuCache) with minFreq := 1 } := rfl
  have hnode : (ageAll t).nodeMap
      = (((t.freqMap.map Prod.snd).flatten).foldl ageStep
          ({ t with freqMap := [], curTotalNum := 0 } : LfuCache)).nodeMap := by
    rw [hageAll, nodeMap_recomputeAvg]
  have hfreq : (ageAll t).freqMap
      = (((t.freqMap.map Prod.snd).flatten).foldl ageStep
          ({ t with freqMap := [], curTotalNum := 0 } : LfuCache)).freqMap := by
    rw [hageAll, freqMap_recomputeAvg]
  have htotal : (ageAll t).curTotalNum
      = (((t.freqMap.map Prod.snd).flatten).foldl ageStep
          ({ t with freqMap := [], curTotalNum := 0 } : LfuCache)).curTotalNum := by
    rw [hageAll, curTotalNum_recomputeAvg]
  have hlookup_all : ∀ x : Key, alookup x (ageAll t).nodeMap
      = (alookup x t.nodeMap).map (fun p => (p.1, if p.2 > 1 then p.2 / 2 else 1)) := by
    intro x
    rw [hnode]
    by_cases hx : x ∈ (t.freqMap.map Prod.snd).flatten
    · exact hp1 x hx
    · have hnone : alookup x t.nodeMap = none := by
        cases hl : alookup x t.nodeMap with
        | none => rfl
        | some p =>
            exact absurd ((hallmem x).mpr (by rw [hl]; rfl)) hx
      rw [hp2 x hx]
      rw [show alookup x ({ t with freqMap := [], curTotalNum := 0 } :
            LfuCache).nodeMap = alookup x t.nodeMap from rfl]
      rw [hnone]
      rfl
  have hkeys : (ageAll t).nodeMap.map Prod.fst = t.nodeMap.map Prod.fst := by
    rw [hnode, keys_foldl_ageStep]
  have hkeysnd : ((ageAll t).nodeMap.map Prod.fst).Nodup := by
    rw [hkeys]
    exact hknd
  have hself : ∀ e ∈ (ageAll t).nodeMap,
      alookup e.1 (ageAll t).nodeMap = some e.2 :=
    alookup_self_of_nodup _ hkeysnd
  have hshape : ∀ e ∈ (ageAll t).nodeMap, ∃ vv f,
      alookup e.1 t.nodeMap = some (vv, f) ∧ e.2 = (vv, if f > 1 then f / 2 else 1) := by
    intro e he
    have h1 := hself e he
    rw [hlookup_all e.1] at h1
    cases hl : alookup e.1 t.nodeMap with
    | none => rw [hl] at h1; simp at h1
    | some p =>
        obtain ⟨vv, f⟩ := p
        rw [hl] at h1
        simp only [Option.map_some'] at h1
        exact ⟨vv, f, rfl, (Option.some.inj h1).symm⟩
  refine ⟨by rw [hageAll]; rfl, hlookup_all, ?_, ?_, ?_⟩
  · intro e he
    obtain ⟨vv, f, _, he2⟩ := hshape e he
    rw [he2]
    dsimp only
    split <;> omega
  · intro e he
    obtain ⟨vv, f, hl, he2⟩ := hshape e he
    have hx : e.1 ∈ (t.freqMap.map Prod.snd).flatten :=
      (hallmem e.1).mpr (by rw [hl]; rfl)
    have hb := hp3 e.1 hx
    rw [hl] at hb
    simp only [Option.map_some', Option.getD_some] at hb
    rw [hfreq, he2]
    exact hb
  · -- total = sum of the new frequencies
    rw [htotal, hp4]
    have hsum0 : ({ t with freqMap := [], curTotalNum := 0 } :
        LfuCache).curTotalNum = 0 := rfl
    rw [hsum0, Nat.zero_add]
    -- both sides sum the same multiset of new frequencies
    have hmapeq : (ageAll t).nodeMap.map (fun e => e.2.2)
        = ((ageAll t).nodeMap.map Prod.fst).map
            (fun x => ((alookup x t.nodeMap).map
              (fun p => if p.2 > 1 then p.2 / 2 else 1)).getD 0) := by
      rw [List.map_map]
      refine List.map_congr_left ?_
      intro e he
      obtain ⟨vv, f, hl, he2⟩ := hshape e he
      simp only [Function.comp_apply, hl, he2, Option.map_some', Option.getD_some]
    have hperm : ((t.freqMap.map Prod.snd).flatten).Perm (t.nodeMap.map Prod.fst) := by
      refine (List.perm_ext_iff_of_nodup hallnd hknd).mpr ?_
      intro x
      rw [hallmem x]
      constructor
      · exact mem_keys_of_alookup_isSome x t.nodeMap
      · exact alookup_isSome_of_mem_keys x t.nodeMap
    rw [hmapeq, hkeys]
    exact (hperm.map _).sum_eq

@[simp] theorem maxAverageNum_recomputeAvg (s : LfuCache) :
    s.recomputeAvg.maxAverageNum = s.maxAverageNum := rfl

@[simp] theorem maxAverageNum_addToBucket (s : LfuCache) (f : Nat) (k : Key) :
    (s.addToBucket f k).maxAverageNum = s.maxAverageNum := by
  unfold addToBucket
  split <;> rfl

@[simp] theorem maxAverageNum_removeFromBucket (s : LfuCache) (f : Nat) (k : Key) :
    (s.removeFromBucket f k).1.maxAverageNum = s.maxAverageNum := by
  unfold removeFromBucket
  split
  · dsimp only
    split <;> rfl
  · rfl

@[simp] theorem maxAverageNum_updateMinFreq (s : LfuCache) :
    s.updateMinFreq.maxAverageNum = s.maxAverageNum := by
  unfold updateMinFreq
  dsimp only
  split <;> rfl

theorem maxAverageNum_increaseFrequency (s : LfuCache) (k : Key) :
    (s.increaseFrequency k).maxAverageNum = s.maxAverageNum := by
  unfold increaseFrequency
  cases alookup k s.nodeMap with
  | none => rfl
  | some p =>
      obtain ⟨v, f⟩ := p
      dsimp only
      rw [maxAverageNum_recomputeAvg, maxAverageNum_addToBucket]
      split
      · exact maxAverageNum_removeFromBucket s f k
      · exact maxAverageNum_removeFromBucket s f k

theorem maxAverageNum_evict (s : LfuCache) : (evict s).maxAverageNum = s.maxAverageNum := by
  unfold evict
  split
  · rfl
  · dsimp only
    have hmax : ∀ u : LfuCache,
        (if (alookup s.minFreq s.freqMap).isSome then s else s.updateMinFreq) = u →
        u.maxAverageNum = s.maxAverageNum := by
      intro u hu
      rw [← hu]
      split
      · rfl
      · exact maxAverageNum_updateMinFreq s
    generalize hu : (if (alookup s.minFreq s.freqMap).isSome then s
        else s.updateMinFreq) = u
    have hmu := hmax u hu
    split
    · exact hmu
    · split
      · exact hmu
      · rw [maxAverageNum_recomputeAvg]
        dsimp only
        split
        · rw [maxAverageNum_updateMinFreq, maxAverageNum_removeFromBucket]
          exact hmu
        · rw [maxAverageNum_removeFromBucket]
          exact hmu

theorem maxAverageNum_putCore (s : LfuCache) (k : Key) (v : Val) :
    (putCore s k v).maxAverageNum = s.maxAverageNum := by
  unfold putCore
  cases alookup k s.nodeMap with
  | some p =>
      obtain ⟨v0, f⟩ := p
      dsimp only
      rw [maxAverageNum_increaseFrequency]
  | none =>
      dsimp only
      rw [maxAverageNum_recomputeAvg, maxAverageNum_addToBucket]
      split
      · exact maxAverageNum_evict s
      · rfl

theorem avg_recompute_self (u : LfuCache) : (recomputeAvg u).curAverageNum
    = if (recomputeAvg u).nodeMap.isEmpty then 0
      else (recomputeAvg u).curTotalNum / (recomputeAvg u).nodeMap.length := rfl

/-- putCore always ends by recomputing the running average. -/
theorem avg_putCore (s : LfuCache) (k : Key) (v : Val) :
    (putCore s k v).curAverageNum
      = if (putCore s k v).nodeMap.isEmpty then 0
        else (putCore s k v).curTotalNum / (putCore s k v).nodeMap.length := by
  unfold putCore
  cases h : alookup k s.nodeMap with
  | some p =>
      obtain ⟨v0, f⟩ := p
      dsimp only
      unfold increaseFrequency
      rw [alookup_upsert_self]
      exact avg_recompute_self _
  | none =>
      dsimp only
      exact avg_recompute_self _

/-- On a hit, increaseFrequency ends by recomputing the running average. -/
theorem avg_increaseFrequency_hit (s : LfuCache) (k : Key) (p : Val × Nat)
    (h : alookup k s.nodeMap = some p) :
    (s.increaseFrequency k).curAverageNum
      = if (s.increaseFrequency k).nodeMap.isEmpty then 0
        else (s.increaseFrequency k).curTotalNum
          / (s.increaseFrequency k).nodeMap.length := by
  unfold increaseFrequency
  rw [h]
  obtain ⟨v0, f⟩ := p
  exact avg_recompute_self _

/-- The aging trigger of put: at positive capacity put is the aging check
applied to its core, and the pass fires exactly when the recomputed
average total / size exceeds the threshold on a non-empty cache. -/
theorem put_aging_trigger (s : LfuCache) (k : Key) (v : Val) (hcap : s.capacity ≠ 0) :
    ((putCore s k v).nodeMap ≠ [] →
      (putCore s k v).maxAverageNum
          < (putCore s k v).curTotalNum / (putCore s k v).nodeMap.length →
      put s k v = ageAll (putCore s k v)) ∧
    ((putCore s k v).nodeMap = [] ∨
      (putCore s k v).curTotalNum / (putCore s k v).nodeMap.length
          ≤ (putCore s k v).maxAverageNum →
      put s k v = putCore s k v) := by
  have havg := avg_putCore s k v
  constructor
  · intro hne hgt
    unfold put
    rw [if_neg hcap]
    unfold maybeAge
    rw [if_pos]
    constructor
    · rw [isEmpty_false_of_ne_nil hne]
      simp
    · rw [havg, isEmpty_false_of_ne_nil hne, if_neg (by simp)]
      exact hgt
  · intro hle
    unfold put
    rw [if_neg hcap]
    unfold maybeAge
    rw [if_neg]
    rintro ⟨hne, hgt⟩
    rw [havg] at hgt
    cases hempty : (putCore s k v).nodeMap.isEmpty with
    | true =>
        rw [hempty] at hne
        simp at hne
    | false =>
        rw [hempty] at hgt
        simp only [Bool.false_eq_true, if_false] at hgt
        rcases hle with hle | hle
        · rw [hle] at hempty
          simp at hempty
        · omega

/-- The aging trigger of get on a hit. -/
theorem get_aging_trigger (s : LfuCache) (k : Key) (p : Val × Nat)
    (h : alookup k s.nodeMap = some p) :
    (s.get k).1 = some p.1 ∧
    ((s.increaseFrequency k).nodeMap ≠ [] →
      (s.increaseFrequency k).maxAverageNum
          < (s.increaseFrequency k).curTotalNum
            / (s.increaseFrequency k).nodeMap.length →
      (s.get k).2 = ageAll (s.increaseFrequency k)) ∧
    ((s.increaseFrequency k).nodeMap = [] ∨
      (s.increaseFrequency k).curTotalNum / (s.increaseFrequency k).nodeMap.length
          ≤ (s.increaseFrequency k).maxAverageNum →
      (s.get k).2 = s.increaseFrequency k) := by
  have havg := avg_increaseFrequency_hit s k p h
  have hget : s.get k = (some p.1, (s.increaseFrequency k).maybeAge) := by
    unfold get
    rw [h]
  refine ⟨by rw [hget], ?_, ?_⟩
  · intro hne hgt
    rw [hget]
    show (s.increaseFrequency k).maybeAge = _
    unfold maybeAge
    rw [if_pos]
    constructor
    · rw [isEmpty_false_of_ne_nil hne]
      simp
    · rw [havg, isEmpty_false_of_ne_nil hne, if_neg (by simp)]
      exact hgt
  · intro hle
    rw [hget]
    show (s.increaseFrequency k).maybeAge = _
    unfold maybeAge
    rw [if_neg]
    rintro ⟨hne, hgt⟩
    rw [havg] at hgt
    cases hempty : (s.increaseFrequency k).nodeMap.isEmpty with
    | true =>
        rw [hempty] at hne
        simp at hne
    | false =>
        rw [hempty] at hgt
        simp only [Bool.false_eq_true, if_false] at hgt
        rcases hle with hle | hle
        · rw [hle] at hempty
          simp at hempty
        · omega

end LfuCache

/-! ### ARC structural well-formedness (claim C8)

The list/index coordination invariant of an ARC instance: the four lists
hold no duplicates and are pairwise disjoint, the value index agrees with
T1 and T2 (a key is tagged T1/T2 exactly when it lies in that list), each
ghost index has exactly the keys of its ghost list, and p stays within the
capacity.  All conjuncts are bounded quantifications, so the predicate is
decidable on concrete states. -/

/-- The tag under which a key is indexed, if any. -/
def tagOf (s : ArcSt) (x : Key) : Option ArcTag :=
  (alookup x s.map).map Prod.snd

def ArcInv (s : ArcSt) : Prop :=
  s.t1.Nodup ∧ s.t2.Nodup ∧ s.b1.Nodup ∧ s.b2.Nodup ∧
  s.b1k.Nodup ∧ s.b2k.Nodup ∧
  (∀ x ∈ s.t1, x ∉ s.t2) ∧ (∀ x ∈ s.t1, x ∉ s.b1) ∧ (∀ x ∈ s.t1, x ∉ s.b2) ∧
  (∀ x ∈ s.t2, x ∉ s.b1) ∧ (∀ x ∈ s.t2, x ∉ s.b2) ∧ (∀ x ∈ s.b1, x ∉ s.b2) ∧
  (∀ x ∈ s.t1, tagOf s x = some ArcTag.T1) ∧
  (∀ x ∈ s.t2, tagOf s x = some ArcTag.T2) ∧
  (∀ e ∈ s.map, (e.2.2 = ArcTag.T1 → e.1 ∈ s.t1) ∧ (e.2.2 = ArcTag.T2 → e.1 ∈ s.t2)) ∧
  (∀ x ∈ s.b1k, x ∈ s.b1) ∧ (∀ x ∈ s.b1, x ∈ s.b1k) ∧
  (∀ x ∈ s.b2k, x ∈ s.b2) ∧ (∀ x ∈ s.b2, x ∈ s.b2k) ∧
  s.p ≤ s.capacity

instance arcInvDecidable (s : ArcSt) : Decidable (ArcInv s) := by
  unfold ArcInv
  infer_instance

/-- Under the invariant, a key of the B1 ghost index is absent from the
value index. -/
theorem arcInv_b1k_not_indexed (s : ArcSt) (hInv : ArcInv s) (k : Key)
    (hb1 : k ∈ s.b1k) : alookup k s.map = none := by
  obtain ⟨-, -, -, -, -, -, -, ht1b1, -, ht2b1, -, -, -, -, hmap, hb1kb1, -, -, -, -⟩ := hInv
  have hkb1 : k ∈ s.b1 := hb1kb1 k hb1
  cases hl : alookup k s.map with
  | none => rfl
  | some vt =>
      exfalso
      obtain ⟨v, tag⟩ := vt
      have hmem := mem_of_alookup_eq_some k (v, tag) s.map hl
      have := hmap (k, (v, tag)) hmem
      cases tag with
      | T1 => exact ht1b1 k (this.1 rfl) hkb1
      | T2 => exact ht2b1 k (this.2 rfl) hkb1

namespace ArcNew

theorem trimGhostAux_mem_fst (cap : Nat) :
    ∀ (fuel : Nat) (bl bm : List Key) (x : Key),
      x ∈ (ArcSt.trimGhostAux cap fuel bl bm).1 → x ∈ bl := by
  intro fuel
  induction fuel with
  | zero => intro bl bm x hx; exact hx
  | succ n ih =>
      intro bl bm x hx
      unfold ArcSt.trimGhostAux at hx
      by_cases hlen : bl.length > cap
      · rw [if_pos hlen] at hx
        cases hg : bl.getLast? with
        | none => rw [hg] at hx; exact hx
        | some tail =>
            rw [hg] at hx
            exact (List.dropLast_sublist bl).mem (ih bl.dropLast (lerase tail bm) x hx)
      · rw [if_neg hlen] at hx
        exact hx

theorem trimGhostAux_mem_snd (cap : Nat) :
    ∀ (fuel : Nat) (bl bm : List Key) (x : Key),
      x ∈ (ArcSt.trimGhostAux cap fuel bl bm).2 → x ∈ bm := by
  intro fuel
  induction fuel with
  | zero => intro bl bm x hx; exact hx
  | succ n ih =>
      intro bl bm x hx
      unfold ArcSt.trimGhostAux at hx
      by_cases hlen : bl.length > cap
      · rw [if_pos hlen] at hx
        cases hg : bl.getLast? with
        | none => rw [hg] at hx; exact hx
        | some tail =>
            rw [hg] at hx
            exact mem_of_mem_lerase (ih bl.dropLast (lerase tail bm) x hx)
      · rw [if_neg hlen] at hx
        exact hx

theorem trimGhost_mem_fst (cap : Nat) (bl bm : List Key) (x : Key)
    (hx : x ∈ (ArcSt.trimGhost cap bl bm).1) : x ∈ bl :=
  trimGhostAux_mem_fst cap bl.length bl bm x hx

theorem trimGhost_mem_snd (cap : Nat) (bl bm : List Key) (x : Key)
    (hx : x ∈ (ArcSt.trimGhost cap bl bm).2) : x ∈ bm :=
  trimGhostAux_mem_snd cap bl.length bl bm x hx

theorem b1_evictFromT2ToB2 (s : ArcSt) : (evictFromT2ToB2 s).b1 = s.b1 := by
  unfold evictFromT2ToB2
  cases s.t2.getLast? <;> rfl

theorem b1k_evictFromT2ToB2 (s : ArcSt) : (evictFromT2ToB2 s).b1k = s.b1k := by
  unfold evictFromT2ToB2
  cases s.t2.getLast? <;> rfl

/-- evictFromT1ToB1 cannot introduce a key that was in neither T1 nor B1
into B1 or its index. -/
theorem evictFromT1ToB1_b1_not_mem (s : ArcSt) (k : Key)
    (hkt1 : k ∉ s.t1) (hkb1 : k ∉ s.b1) (hkb1k : k ∉ s.b1k) :
    k ∉ (evictFromT1ToB1 s).b1 ∧ k ∉ (evictFromT1ToB1 s).b1k := by
  unfold evictFromT1ToB1
  cases hg : s.t1.getLast? with
  | none => exact ⟨hkb1, hkb1k⟩
  | some victim =>
      have hvmem : victim ∈ s.t1 := by
        have : victim ∈ s.t1.dropLast ++ [victim] := by
          simp
        rw [List.dropLast_append_getLast? victim hg] at this
        exact this
      have hvk : victim ≠ k := fun hh => hkt1 (hh ▸ hvmem)
      dsimp only
      constructor
      · intro hmem
        have := trimGhost_mem_fst s.capacity _ _ k hmem
        rw [List.mem_cons] at this
        rcases this with h | h
        · exact hvk h.symm
        · exact hkb1 h
      · intro hmem
        have := trimGhost_mem_snd s.capacity _ _ k hmem
        by_cases hv : victim ∈ s.b1k
        · rw [if_pos hv] at this
          exact hkb1k this
        · rw [if_neg hv] at this
          rw [List.mem_cons] at this
          rcases this with h | h
          · exact hvk h.symm
          · exact hkb1k h

theorem map_none_evictFromT1ToB1 (s : ArcSt) (k : Key)
    (h : alookup k s.map = none) : alookup k (evictFromT1ToB1 s).map = none := by
  unfold evictFromT1ToB1
  cases s.t1.getLast? with
  | none => exact h
  | some victim => exact alookup_aerase_none k victim s.map h

theorem map_none_evictFromT2ToB2 (s : ArcSt) (k : Key)
    (h : alookup k s.map = none) : alookup k (evictFromT2ToB2 s).map = none := by
  unfold evictFromT2ToB2
  cases s.t2.getLast? with
  | none => exact h
  | some victim => exact alookup_aerase_none k victim s.map h

/-- replace never introduces an absent key into B1, its index, or the
value index. -/
theorem replace_preserves_absent (s : ArcSt) (b : Bool) (k : Key)
    (hkt1 : k ∉ s.t1) (hkb1 : k ∉ s.b1) (hkb1k : k ∉ s.b1k)
    (hmiss : alookup k s.map = none) :
    k ∉ (replace s b).b1 ∧ k ∉ (replace s b).b1k ∧
    alookup k (replace s b).map = none := by
  unfold replace
  split
  · obtain ⟨h1, h2⟩ := evictFromT1ToB1_b1_not_mem s k hkt1 hkb1 hkb1k
    exact ⟨h1, h2, map_none_evictFromT1ToB1 s k hmiss⟩
  · rw [b1_evictFromT2ToB2, b1k_evictFromT2ToB2]
    exact ⟨hkb1, hkb1k, map_none_evictFromT2ToB2 s k hmiss⟩

end ArcNew

/-! ### Concrete traces used by the claim theorems -/

/-- A put of key 1 value 5 into a fresh LRU-K cache (capacity 2, K = 2):
key 1 is pending with one history hit. -/
def lrukAfterPut : LruKCache := (LruKCache.init 2 2).put 1 5

/-- Capacity-2 ARC trace reaching the state T1 = [5], T2 = [3], B1 = [4],
B2 = [2, 1], p = 0, on which the ghost hit get(4) empties B1. -/
def c3trace : List Op :=
  [Op.oput 1 0, Op.oput 1 0, Op.oput 2 0, Op.oput 2 0,
   Op.oput 3 0, Op.oput 3 0, Op.oput 4 0, Op.oput 5 0]

/-- Capacity-2 ARC trace on which the B1-trim branch of the fresh-key put
fires without a replace, leaving |T1| + |T2| = 3. -/
def c4trace : List Op :=
  [Op.oput 1 11, Op.oput 2 12, Op.oput 3 13, Op.oput 1 14, Op.oput 4 15]

/-- The literal LRU scenario of the spec: capacity 2,
put(1,a); put(2,b); get(1); put(3,c). -/
def c7trace : List Op :=
  [Op.oput 1 21, Op.oput 2 22, Op.oget 1, Op.oput 3 23]

/-- Capacity-2 ARC trace whose third put evicts key 1 into B1. -/
def c8trace : List Op := [Op.oput 1 7, Op.oput 2 8, Op.oput 3 9]

/-- LFU trace (capacity 1, aging threshold 3) ending in an aging pass that
leaves minFreq_ stale at 1 while the only entry has frequency 2. -/
def c5trace : List Op := [Op.oput 1 10, Op.oget 1, Op.oget 1, Op.oget 1]

/-- LFU trace (capacity 2, aging disabled) filling the cache with keys 1
(frequency 2) and 2 (frequency 1). -/
def c5wtrace : List Op := [Op.oput 1 10, Op.oput 2 20, Op.oget 1]

/-- LFU trace (capacity 1, aging threshold 3) whose next touch of key 1
pushes the average over the threshold. -/
def c6trace : List Op := [Op.oput 1 10, Op.oget 1, Op.oget 1]

/-! ### Claim theorems -/

/-- C1: the spec says a promotion inserts (k, pend[k]) into the main LRU
and a promoting get returns that pending value.  The code deletes both the
history and the pending entry, but LruKCache::shouldPromote never assigns
its promotedValue out-parameter (the fetched storedValue is discarded), so
the promoted pair is (k, default) and the promoting get returns the
default value: after put(1,5) on a fresh LRU-K (capacity 2, K = 2), where
pend[1] = 5 and key 1 is not yet in the main cache, get(1) triggers the
promotion, returns 0 rather than 5, inserts (1, 0) into the main LRU, and
clears both the pending and the history entry. -/
theorem claim_C1_promotion_inserts_default :
    alookup 1 lrukAfterPut.historyValueMap = some 5 ∧
    alookup 1 lrukAfterPut.main.nodeMap = none ∧
    (lrukAfterPut.get 1).1 = 0 ∧
    (lrukAfterPut.get 1).1 ≠ 5 ∧
    alookup 1 ((lrukAfterPut.get 1).2).main.nodeMap = some 0 ∧
    ((lrukAfterPut.get 1).2).historyValueMap = [] ∧
    alookup 1 ((lrukAfterPut.get 1).2).historyList.nodeMap = none := by
  decide

/-- C2 (amended): put(k,v); get(k) == v holds for the LRU (always), for the
sharded LRU (whenever it has a shard), and for the LFU and the ARC at
positive capacity — but not for LRU-K, whose admission filter makes a get
of a not-yet-promoted fresh key return the default value (see the
counterexample). -/
theorem claim_C2_round_trip_amended :
    (∀ (s : LruCache) (k : Key) (v : Val), ((s.put k v).get k).1 = some v) ∧
    (∀ (hash : Key → Nat) (s : HashLruCaches) (k : Key) (v : Val), s.slices ≠ [] →
      ((s.put hash k v).get hash k).1 = some v) ∧
    (∀ (s : LfuCache) (k : Key) (v : Val), s.capacity ≠ 0 →
      ((s.put k v).get k).1 = some v) ∧
    (∀ (s : ArcSt) (k : Key) (v : Val), s.capacity ≠ 0 →
      (ArcNew.get (ArcNew.put s k v) k).1 = some v) :=
  ⟨LruCache.lru_put_get_round_trip,
   HashLruCaches.hash_put_get_round_trip,
   LfuCache.lfu_put_get_round_trip,
   ArcNew.arc_put_get_round_trip⟩

theorem claim_C2_witness :
    (((LruCache.init 2).put 1 5).get 1).1 = some 5 ∧
    (((HashLruCaches.init 4 2).put id 1 5).get id 1).1 = some 5 ∧
    (((LfuCache.init 2 1000000).put 1 5).get 1).1 = some 5 ∧
    (ArcNew.get (ArcNew.put (ArcSt.init 2) 1 5) 1).1 = some 5 :=
  ⟨claim_C2_round_trip_amended.1 (LruCache.init 2) 1 5,
   claim_C2_round_trip_amended.2.1 id (HashLruCaches.init 4 2) 1 5 (by decide),
   claim_C2_round_trip_amended.2.2.1 (LfuCache.init 2 1000000) 1 5 (by decide),
   claim_C2_round_trip_amended.2.2.2 (ArcSt.init 2) 1 5 (by decide)⟩

/-- C2 counterexample: for the LRU-K policy (capacity 2, K = 3), put(1,5)
followed by get(1) returns the default value 0, not 5 — the key is still
below the admission threshold, so the round trip fails. -/
theorem claim_C2_counterexample :
    (((LruKCache.init 2 3).put 1 5).get 1).1 = 0 ∧
    (((LruKCache.init 2 3).put 1 5).get 1).1 ≠ 5 := by
  decide

/-- C3 (amended): on a ghost hit (via get or via put) the code removes the
ghost first and then adjusts p from the post-removal sizes with
  B1 hit: p := min(C, p + max(1, if |B1| = 0 then 1 else |B2| / |B1|)),
  B2 hit: p := p - max(1, if |B2| = 0 then 1 else |B1| / |B2|) clamped at 0;
when the hit ghost list is empty after the removal the step is the fixed
value 1, not |other list| / 1 as the claimed formula
max(1, |other| / max(1, |emptied|)) would give. -/
theorem claim_C3_p_adjustment_amended (s : ArcSt) (k : Key) (v : Val)
    (hmiss : alookup k s.map = none) :
    (k ∈ s.b1k →
      ((ArcNew.get s k).2.p = ArcNew.pAfterB1Hit s k ∧
       (ArcNew.put s k v).p = ArcNew.pAfterB1Hit s k)) ∧
    (k ∉ s.b1k → k ∈ s.b2k →
      ((ArcNew.get s k).2.p = ArcNew.pAfterB2Hit s k ∧
       (ArcNew.put s k v).p = ArcNew.pAfterB2Hit s k)) := by
  constructor
  · intro hb1
    exact ⟨ArcNew.get_b1_hit_p s k hmiss hb1, ArcNew.put_b1_hit_p s k v hmiss hb1⟩
  · intro hb1 hb2
    exact ⟨ArcNew.get_b2_hit_p s k hmiss hb1 hb2, ArcNew.put_b2_hit_p s k v hmiss hb1 hb2⟩

theorem claim_C3_witness :
    (ArcNew.get (ArcNew.run 2 c3trace) 4).2.p
        = ArcNew.pAfterB1Hit (ArcNew.run 2 c3trace) 4 ∧
    (ArcNew.put (ArcNew.run 2 c3trace) 4 7).p
        = ArcNew.pAfterB1Hit (ArcNew.run 2 c3trace) 4 :=
  (claim_C3_p_adjustment_amended (ArcNew.run 2 c3trace) 4 7 (by decide)).1 (by decide)

/-- C3 counterexample: a reachable capacity-2 state has B1 = [4] and
|B2| = 2; the ghost hit get(4) leaves B1 empty, and the code sets p to 1,
while the claimed formula min(C, p + max(1, |B2| / max(1, |B1|))) with the
sizes at the moment of adjustment gives 2. -/
theorem claim_C3_counterexample :
    alookup 4 (ArcNew.run 2 c3trace).map = none ∧
    4 ∈ (ArcNew.run 2 c3trace).b1k ∧
    (lerase 4 (ArcNew.run 2 c3trace).b1).length = 0 ∧
    (ArcNew.run 2 c3trace).b2.length = 2 ∧
    (ArcNew.run 2 c3trace).p = 0 ∧
    (ArcNew.get (ArcNew.run 2 c3trace) 4).2.p = 1 ∧
    min (ArcNew.run 2 c3trace).capacity
      ((ArcNew.run 2 c3trace).p +
        max 1 ((ArcNew.run 2 c3trace).b2.length /
          max 1 (lerase 4 (ArcNew.run 2 c3trace).b1).length)) = 2 := by
  decide

/-- C4: the fresh-key branch of put only trims B1 when |T1|+|B1| >= C and
|T1| < C, without the replace step the ARC paper performs there, so the
real cache can exceed its capacity: after the capacity-2 trace
put 1, put 2, put 3, put 1, put 4 the state has |T1| + |T2| = 3 > 2,
refuting |T1| + |T2| <= C (the remaining conjuncts are moot for the
conjunction).  This contradicts the spec's stated ARC invariant, the
header's description of capacity_ as the bound on T1+T2, and the paper
constraint the code comments cite. -/
theorem claim_C4_capacity_overflow :
    (ArcNew.run 2 c4trace).capacity = 2 ∧
    (ArcNew.run 2 c4trace).t1.length + (ArcNew.run 2 c4trace).t2.length = 3 := by
  decide

/-- C5 (amended): on a well-formed non-empty LFU state, the eviction
victim heads the bucket labelled with the victim's own frequency, that
frequency is minimal among all live keys (it equals min_freq after the
lazy correction, not necessarily min_freq as stored before the eviction),
the victim's index entry is deleted, the running total drops by exactly
the victim's frequency, and a put of a fresh key at full positive capacity
leaves the victim unindexed. -/
theorem claim_C5_lfu_eviction_amended (s : LfuCache)
    (hInv : LfuInv s) (hne : s.nodeMap ≠ []) :
    ∃ victim vv f rest,
      alookup victim s.nodeMap = some (vv, f) ∧
      (∀ e ∈ s.nodeMap, f ≤ e.2.2) ∧
      alookup f s.freqMap = some (victim :: rest) ∧
      (LfuCache.evict s).nodeMap = aerase victim s.nodeMap ∧
      alookup victim (LfuCache.evict s).nodeMap = none ∧
      (LfuCache.evict s).curTotalNum + f = s.curTotalNum ∧
      (∀ (k : Key) (v : Val), alookup k s.nodeMap = none →
        s.nodeMap.length ≥ s.capacity → s.capacity ≠ 0 →
        alookup victim (LfuCache.put s k v).nodeMap = none) := by
  obtain ⟨victim, vv, f, rest, h1, h2, h3, h4, h5, h6⟩ := LfuCache.evict_victim s hInv hne
  refine ⟨victim, vv, f, rest, h1, h2, h3, h4, h5, h6, ?_⟩
  intro k v hfresh hfull hcap
  have hvk : victim ≠ k := by
    intro hh
    rw [hh, hfresh] at h1
    cases h1
  exact LfuCache.put_fresh_keeps_absent s k v victim hvk h5 hfresh hfull hcap

theorem claim_C5_witness :
    ∃ victim vv f rest,
      alookup victim (LfuCache.run 2 1000000 c5wtrace).nodeMap = some (vv, f) ∧
      (∀ e ∈ (LfuCache.run 2 1000000 c5wtrace).nodeMap, f ≤ e.2.2) ∧
      alookup f (LfuCache.run 2 1000000 c5wtrace).freqMap = some (victim :: rest) ∧
      (LfuCache.evict (LfuCache.run 2 1000000 c5wtrace)).nodeMap
        = aerase victim (LfuCache.run 2 1000000 c5wtrace).nodeMap ∧
      alookup victim (LfuCache.evict (LfuCache.run 2 1000000 c5wtrace)).nodeMap = none ∧
      (LfuCache.evict (LfuCache.run 2 1000000 c5wtrace)).curTotalNum + f
        = (LfuCache.run 2 1000000 c5wtrace).curTotalNum ∧
      (∀ (k : Key) (v : Val),
        alookup k (LfuCache.run 2 1000000 c5wtrace).nodeMap = none →
        (LfuCache.run 2 1000000 c5wtrace).nodeMap.length
          ≥ (LfuCache.run 2 1000000 c5wtrace).capacity →
        (LfuCache.run 2 1000000 c5wtrace).capacity ≠ 0 →
        alookup victim
          (LfuCache.put (LfuCache.run 2 1000000 c5wtrace) k v).nodeMap = none) :=
  claim_C5_lfu_eviction_amended (LfuCache.run 2 1000000 c5wtrace) (by decide) (by decide)

/-- C5 counterexample: after the capacity-1, threshold-3 trace
put(1); get(1); get(1); get(1) an aging pass has run: min_freq is 1, but
the only live key has frequency 2 and no bucket labelled 1 exists.  The
eviction inside put(2,20) therefore removes key 1 out of the bucket
labelled 2 after lazily re-deriving the minimum, so the victim's frequency
(2) differs from min_freq before the eviction (1), refuting the claim as
stated. -/
theorem claim_C5_counterexample :
    (LfuCache.run 1 3 c5trace).minFreq = 1 ∧
    freqOf (LfuCache.run 1 3 c5trace) 1 = some 2 ∧
    alookup (LfuCache.run 1 3 c5trace).minFreq (LfuCache.run 1 3 c5trace).freqMap = none ∧
    alookup 1 (LfuCache.put (LfuCache.run 1 3 c5trace) 2 20).nodeMap = none ∧
    alookup 2 (LfuCache.put (LfuCache.run 1 3 c5trace) 2 20).nodeMap = some (20, 1) := by
  decide

/-- C6: at positive capacity, put (and a hit get) runs its state change
and then the aging check; the full pass runs exactly when the recomputed
average curTotalNum / |nodeMap| exceeds the unchanged threshold
maxAverageNum on a non-empty cache; and on a well-formed state the pass
sets every entry's frequency to max(1, freq / 2), rebuckets it under its
new frequency, resets minFreq_ to 1, leaves every frequency at least 1 and
recounts curTotalNum as the sum of all entry frequencies. -/
theorem claim_C6_lfu_aging :
    (∀ (s : LfuCache) (k : Key) (v : Val), s.capacity ≠ 0 →
      (((LfuCache.putCore s k v).nodeMap ≠ [] →
        (LfuCache.putCore s k v).maxAverageNum
            < (LfuCache.putCore s k v).curTotalNum
              / (LfuCache.putCore s k v).nodeMap.length →
        LfuCache.put s k v = LfuCache.ageAll (LfuCache.putCore s k v)) ∧
       ((LfuCache.putCore s k v).nodeMap = [] ∨
        (LfuCache.putCore s k v).curTotalNum / (LfuCache.putCore s k v).nodeMap.length
            ≤ (LfuCache.putCore s k v).maxAverageNum →
        LfuCache.put s k v = LfuCache.putCore s k v))) ∧
    (∀ (s : LfuCache) (k : Key) (p : Val × Nat), alookup k s.nodeMap = some p →
      ((LfuCache.get s k).1 = some p.1 ∧
       ((LfuCache.increaseFrequency s k).nodeMap ≠ [] →
        (LfuCache.increaseFrequency s k).maxAverageNum
            < (LfuCache.increaseFrequency s k).curTotalNum
              / (LfuCache.increaseFrequency s k).nodeMap.length →
        (LfuCache.get s k).2 = LfuCache.ageAll (LfuCache.increaseFrequency s k)) ∧
       ((LfuCache.increaseFrequency s k).nodeMap = [] ∨
        (LfuCache.increaseFrequency s k).curTotalNum
            / (LfuCache.increaseFrequency s k).nodeMap.length
            ≤ (LfuCache.increaseFrequency s k).maxAverageNum →
        (LfuCache.get s k).2 = LfuCache.increaseFrequency s k))) ∧
    (∀ (s : LfuCache) (k : Key) (v : Val),
      (LfuCache.putCore s k v).maxAverageNum = s.maxAverageNum) ∧
    (∀ (s : LfuCache) (k : Key),
      (LfuCache.increaseFrequency s k).maxAverageNum = s.maxAverageNum) ∧
    (∀ t : LfuCache, LfuInv t →
      (LfuCache.ageAll t).minFreq = 1 ∧
      (∀ x : Key, alookup x (LfuCache.ageAll t).nodeMap
          = (alookup x t.nodeMap).map (fun p => (p.1, max 1 (p.2 / 2)))) ∧
      (∀ e ∈ (LfuCache.ageAll t).nodeMap, 1 ≤ e.2.2) ∧
      (∀ e ∈ (LfuCache.ageAll t).nodeMap,
        e.1 ∈ (alookup e.2.2 (LfuCache.ageAll t).freqMap).getD []) ∧
      (LfuCache.ageAll t).curTotalNum
          = ((LfuCache.ageAll t).nodeMap.map (fun e => e.2.2)).sum) := by
  have hfun : (fun p : Val × Nat => (p.1, if p.2 > 1 then p.2 / 2 else 1))
      = (fun p : Val × Nat => (p.1, max 1 (p.2 / 2))) := by
    funext p
    rw [LfuCache.newFreq_eq_max]
  refine ⟨?_, ?_, LfuCache.maxAverageNum_putCore,
    LfuCache.maxAverageNum_increaseFrequency, ?_⟩
  · intro s k v hcap
    exact LfuCache.put_aging_trigger s k v hcap
  · intro s k p hp
    exact LfuCache.get_aging_trigger s k p hp
  · intro t hInv
    obtain ⟨h1, h2, h3, h4, h5⟩ := LfuCache.ageAll_props t hInv
    refine ⟨h1, ?_, h3, h4, h5⟩
    intro x
    rw [h2 x, hfun]

theorem claim_C6_witness :
    LfuCache.put (LfuCache.run 1 3 c6trace) 1 99
      = LfuCache.ageAll (LfuCache.putCore (LfuCache.run 1 3 c6trace) 1 99) ∧
    (LfuCache.ageAll (LfuCache.putCore (LfuCache.run 1 3 c6trace) 1 99)).minFreq = 1 ∧
    (LfuCache.ageAll (LfuCache.putCore (LfuCache.run 1 3 c6trace) 1 99)).curTotalNum
      = ((LfuCache.ageAll (LfuCache.putCore
          (LfuCache.run 1 3 c6trace) 1 99)).nodeMap.map (fun e => e.2.2)).sum :=
  ⟨(claim_C6_lfu_aging.1 (LfuCache.run 1 3 c6trace) 1 99 (by decide)).1
      (by decide) (by decide),
   (claim_C6_lfu_aging.2.2.2.2 (LfuCache.putCore (LfuCache.run 1 3 c6trace) 1 99)
      (by decide)).1,
   (claim_C6_lfu_aging.2.2.2.2 (LfuCache.putCore (LfuCache.run 1 3 c6trace) 1 99)
      (by decide)).2.2.2.2⟩

/-- C7: whenever a put of a fresh key finds the LRU cache full, the evicted
key is the head of the recency list, and it is the live key least recently
touched by a put or a hit get (every other live key has a strictly later
touch time); the augmented run agrees with the plain run; and concretely,
with capacity 2, put(1,a); put(2,b); get(1); put(3,c) leaves exactly the
keys 1 and 3 live and get(2) misses. -/
theorem claim_C7_lru_eviction_order :
    (∀ (cap : Nat) (ops : List Op) (k : Key) (v : Val),
      1 ≤ cap →
      amem k (trun cap ops).st.nodeMap = false →
      (trun cap ops).st.nodeMap.length ≥ cap →
      ∃ e rest,
        (trun cap ops).st.order = e :: rest ∧
        (∀ j ∈ rest, touchOf (trun cap ops).touch e < touchOf (trun cap ops).touch j) ∧
        ((trun cap ops).st.put k v).order = rest ++ [k] ∧
        amem e (((trun cap ops).st.put k v)).nodeMap = false) ∧
    (∀ (cap : Nat) (ops : List Op), (trun cap ops).st = LruCache.run cap ops) ∧
    (amem 1 (LruCache.run 2 c7trace).nodeMap = true ∧
     amem 3 (LruCache.run 2 c7trace).nodeMap = true ∧
     (LruCache.run 2 c7trace).nodeMap.length = 2 ∧
     ((LruCache.run 2 c7trace).get 2).1 = none) := by
  refine ⟨?_, trun_st, by decide⟩
  intro cap ops k v hcap hfresh hfull
  refine lru_victim (trun cap ops) k v (TInv_trun cap ops) hfresh ?_ ?_
  · rw [capacity_trun]
    exact hfull
  · rw [capacity_trun]
    exact hcap

theorem claim_C7_witness :
    ∃ e rest,
      (trun 2 c7trace).st.order = e :: rest ∧
      (∀ j ∈ rest, touchOf (trun 2 c7trace).touch e < touchOf (trun 2 c7trace).touch j) ∧
      ((trun 2 c7trace).st.put 4 9).order = rest ++ [4] ∧
      amem e (((trun 2 c7trace).st.put 4 9)).nodeMap = false :=
  claim_C7_lru_eviction_order.1 2 c7trace 4 9 (by decide) (by decide) (by decide)

/-- C8: on a well-formed ARC state, a get of a key in the B1 ghost index
reports a miss, removes the key from B1 and its ghost index and then
performs exactly one p adjustment followed by one replace step; afterwards
the key is absent from B1, from the B1 ghost index and from the value
index, and p has not decreased. -/
theorem claim_C8_b1_ghost_get (s : ArcSt) (k : Key)
    (hInv : ArcInv s) (hb1 : k ∈ s.b1k) :
    (ArcNew.get s k).1 = none ∧
    (ArcNew.get s k).2
      = ArcNew.replace
          (ArcSt.adjustPOnB1Hit
            { s with b1 := lerase k s.b1, b1k := lerase k s.b1k }) true ∧
    k ∉ (ArcNew.get s k).2.b1 ∧
    k ∉ (ArcNew.get s k).2.b1k ∧
    alookup k (ArcNew.get s k).2.map = none ∧
    s.p ≤ (ArcNew.get s k).2.p := by
  have hmiss : alookup k s.map = none := arcInv_b1k_not_indexed s hInv k hb1
  obtain ⟨hnd1, hnd2, hndb1, hndb2, hndb1k, hndb2k, ht1t2, ht1b1, ht1b2, ht2b1,
    ht2b2, hb1b2, htag1, htag2, hmap, hb1k1, hb1k2, hb2k1, hb2k2, hpc⟩ := hInv
  have hget : ArcNew.get s k
      = (none, ArcNew.replace
          (ArcSt.adjustPOnB1Hit
            { s with b1 := lerase k s.b1, b1k := lerase k s.b1k }) true) := by
    unfold ArcNew.get
    rw [hmiss]
    dsimp only
    rw [if_pos hb1]
  have hkt1 : k ∉ (ArcSt.adjustPOnB1Hit
      { s with b1 := lerase k s.b1, b1k := lerase k s.b1k } : ArcSt).t1 :=
    show k ∉ s.t1 from fun hh => ht1b1 k hh (hb1k1 k hb1)
  have hkb1 : k ∉ (ArcSt.adjustPOnB1Hit
      { s with b1 := lerase k s.b1, b1k := lerase k s.b1k } : ArcSt).b1 :=
    show k ∉ lerase k s.b1 from not_mem_lerase_self k s.b1 hndb1
  have hkb1k : k ∉ (ArcSt.adjustPOnB1Hit
      { s with b1 := lerase k s.b1, b1k := lerase k s.b1k } : ArcSt).b1k :=
    show k ∉ lerase k s.b1k from not_mem_lerase_self k s.b1k hndb1k
  have hmiss2 : alookup k (ArcSt.adjustPOnB1Hit
      { s with b1 := lerase k s.b1, b1k := lerase k s.b1k } : ArcSt).map = none := hmiss
  obtain ⟨ha, hb, hc⟩ := ArcNew.replace_preserves_absent _ true k hkt1 hkb1 hkb1k hmiss2
  rw [hget]
  refine ⟨rfl, rfl, ha, hb, hc, ?_⟩
  rw [ArcNew.p_replace]
  show s.p ≤ min s.capacity (s.p + _)
  exact Nat.le_min.mpr ⟨hpc, Nat.le_add_right s.p _⟩

theorem claim_C8_witness :
    (ArcNew.get (ArcNew.run 2 c8trace) 1).1 = none ∧
    (ArcNew.get (ArcNew.run 2 c8trace) 1).2
      = ArcNew.replace
          (ArcSt.adjustPOnB1Hit
            { ArcNew.run 2 c8trace with
                b1 := lerase 1 (ArcNew.run 2 c8trace).b1
                b1k := lerase 1 (ArcNew.run 2 c8trace).b1k }) true ∧
    1 ∉ (ArcNew.get (ArcNew.run 2 c8trace) 1).2.b1 ∧
    1 ∉ (ArcNew.get (ArcNew.run 2 c8trace) 1).2.b1k ∧
    alookup 1 (ArcNew.get (ArcNew.run 2 c8trace) 1).2.map = none ∧
    (ArcNew.run 2 c8trace).p ≤ (ArcNew.get (ArcNew.run 2 c8trace) 1).2.p :=
  claim_C8_b1_ghost_get (ArcNew.run 2 c8trace) 1 (by decide) (by decide)

/-- C9: an ARC instance constructed with capacity 0 never changes state —
every run from it stays at the constructor state, every put is a no-op and
every get misses without mutation. -/
theorem claim_C9_capacity_zero (ops : List Op) (k : Key) (v : Val) :
    ArcNew.run 0 ops = ArcSt.init 0 ∧
    ArcNew.put (ArcNew.run 0 ops) k v = ArcNew.run 0 ops ∧
    ArcNew.get (ArcNew.run 0 ops) k = (none, ArcNew.run 0 ops) := by
  have hr := ArcNew.run_zero ops
  refine ⟨hr, ?_, ?_⟩
  · rw [hr]
    exact ArcNew.put_init_zero k v
  · rw [hr]
    exact ArcNew.get_init_zero k

/-- C10: ArcCache and Arc_new are behaviourally equivalent — their put and
get agree on every state (the only textual differences are empty-list
guards in branches whose conditions already force the lists non-empty), so
every call sequence from a fresh instance of either class yields the same
hit/miss results, the same values and equal states. -/
theorem claim_C10_arc_equivalence :
    (∀ (s : ArcSt) (k : Key) (v : Val), ArcCache.put s k v = ArcNew.put s k v) ∧
    (∀ (s : ArcSt) (k : Key), ArcCache.get s k = ArcNew.get s k) ∧
    (∀ (cap : Nat) (ops : List Op),
      ArcCache.run cap ops = ArcNew.run cap ops ∧
      ArcCache.outs (ArcSt.init cap) ops = ArcNew.outs (ArcSt.init cap) ops) := by
  refine ⟨ArcCache.put_eq, ?_, ?_⟩
  · intro s k
    rw [ArcCache.get_eq]
  · intro cap ops
    exact ⟨ArcCache.run_eq cap ops, ArcCache.outs_eq (ArcSt.init cap) ops⟩

end CacheSystem
